import Mathlib

/-!
# A verification of the jsdb storage engine core

This file gives a shallow embedding, in Lean 4, of the core of the jsdb
storage engine (an embedded key-value store persisting records as
newline-delimited JSON into append-only block files), together with
theorems about its recovery procedure, index maintenance, durability
path, option parsing and compaction.

The embedding follows the TypeScript source:
* `src/internal/state.ts` — `createOptions`, `createDbState` (recovery),
  `hasItem`, `getItem`, `setItem`, `deleteItem`, `getFreeBlock`,
  `calculateStaleBytes`, `updateStaleBytes`, `loadBlock`,
  `mergeBlockMaps`, `sequenceNo`;
* the node storage backend — `appendToFile` and the `throttle` helper;
* `src/internal/page.ts` — `compactPage` with the contemporaneous
  `mergePageMaps`.

JavaScript `Map` objects are modelled as insertion-ordered association
lists (`JsMap`); JSON record lines are modelled structurally as `Rec`
values (a parsed line), with `serializeRec`/`recLen` standing for
`JSON.stringify` and the string length the source uses for byte
accounting.  Object identity of user values (needed for the in-place
mutation performed by `setItem`) is modelled by a small reference heap.
-/

set_option autoImplicit false

namespace JsDb

/-- Insertion-ordered association list: the model of a JavaScript `Map`.
`set` replaces in place, `del` removes the entry, iteration order is the
list order — exactly the iteration contract of a JS `Map`. -/
structure JsMap (α β : Type) where
  entries : List (α × β)
deriving DecidableEq, Repr

namespace JsMap

variable {α β : Type} [DecidableEq α]

/-- The empty map (`new Map()`). -/
def empty : JsMap α β := ⟨[]⟩

/-- `Map.prototype.get` (list level). -/
def getAux : List (α × β) → α → Option β
  | [], _ => none
  | kv :: m, k => if kv.1 = k then some kv.2 else getAux m k

def get? (m : JsMap α β) (k : α) : Option β := getAux m.entries k

/-- `Map.prototype.set` (list level): replaces the value in place if the
key is present, otherwise appends at the end (JS insertion order). -/
def setAux : List (α × β) → α → β → List (α × β)
  | [], k, v => [(k, v)]
  | kv :: m, k, v => if kv.1 = k then (k, v) :: m else kv :: setAux m k v

def set (m : JsMap α β) (k : α) (v : β) : JsMap α β := ⟨setAux m.entries k v⟩

/-- `Map.prototype.delete` (list level; only the resulting map is
modelled). -/
def delAux : List (α × β) → α → List (α × β)
  | [], _ => []
  | kv :: m, k => if kv.1 = k then m else kv :: delAux m k

def del (m : JsMap α β) (k : α) : JsMap α β := ⟨delAux m.entries k⟩

/-- Fold over the entries in iteration order (a `for (const [k,v] of m)`
loop carrying an accumulator). -/
def foldl {γ : Type} (f : γ → α × β → γ) (init : γ) (m : JsMap α β) : γ :=
  m.entries.foldl f init

/-- The keys of the map are pairwise distinct (true of every real JS
`Map`; needed because the model is an association list). -/
def NodupKeys (m : JsMap α β) : Prop := (m.entries.map Prod.fst).Nodup

instance (m : JsMap α β) : Decidable m.NodupKeys :=
  inferInstanceAs (Decidable (m.entries.map Prod.fst).Nodup)

@[simp] theorem get?_empty (k : α) : (empty : JsMap α β).get? k = none := rfl

theorem getAux_cons (kv : α × β) (m : List (α × β)) (k : α) :
    getAux (kv :: m) k = if kv.1 = k then some kv.2 else getAux m k := rfl

theorem getAux_setAux_self (m : List (α × β)) (k : α) (v : β) :
    getAux (setAux m k v) k = some v := by
  induction m with
  | nil => simp [setAux, getAux]
  | cons kv m ih =>
    by_cases h : kv.1 = k
    · rw [setAux, if_pos h, getAux_cons, if_pos rfl]
    · rw [setAux, if_neg h, getAux_cons, if_neg h, ih]

theorem get?_set_self (m : JsMap α β) (k : α) (v : β) :
    (m.set k v).get? k = some v := getAux_setAux_self m.entries k v

theorem getAux_setAux_ne (m : List (α × β)) (k k' : α) (v : β) (h : k ≠ k') :
    getAux (setAux m k v) k' = getAux m k' := by
  induction m with
  | nil =>
    show getAux [(k, v)] k' = none
    rw [getAux_cons, if_neg h]
    rfl
  | cons kv m ih =>
    by_cases hk : kv.1 = k
    · rw [setAux, if_pos hk, getAux_cons, getAux_cons, if_neg (hk ▸ h),
        if_neg (fun hkk => h (hk ▸ hkk))]
    · rw [setAux, if_neg hk, getAux_cons, getAux_cons, ih]

theorem get?_set_ne (m : JsMap α β) (k k' : α) (v : β) (h : k ≠ k') :
    (m.set k v).get? k' = m.get? k' := getAux_setAux_ne m.entries k k' v h

theorem mem_of_getAux_eq_some {m : List (α × β)} {k : α} {v : β}
    (h : getAux m k = some v) : (k, v) ∈ m := by
  induction m with
  | nil => simp [getAux] at h
  | cons kv m ih =>
    rw [getAux_cons] at h
    by_cases hk : kv.1 = k
    · rw [if_pos hk] at h
      injection h with h
      have : kv = (k, v) := Prod.ext hk h
      rw [← this]
      exact List.mem_cons_self kv m
    · rw [if_neg hk] at h
      exact List.mem_cons_of_mem _ (ih h)

theorem mem_of_get?_eq_some {m : JsMap α β} {k : α} {v : β}
    (h : m.get? k = some v) : (k, v) ∈ m.entries :=
  mem_of_getAux_eq_some h

theorem getAux_eq_none_of_not_mem_keys {m : List (α × β)} {k : α}
    (h : k ∉ m.map Prod.fst) : getAux m k = none := by
  induction m with
  | nil => rfl
  | cons kv m ih =>
    simp only [List.map_cons, List.mem_cons] at h
    push_neg at h
    rw [getAux_cons, if_neg (fun he => h.1 he.symm), ih h.2]

theorem get?_eq_none_of_not_mem_keys {m : JsMap α β} {k : α}
    (h : k ∉ m.entries.map Prod.fst) : m.get? k = none :=
  getAux_eq_none_of_not_mem_keys h

theorem mem_setAux {m : List (α × β)} {k : α} {v : β} {kv : α × β}
    (h : kv ∈ setAux m k v) : kv ∈ m ∨ kv = (k, v) := by
  induction m with
  | nil => simp [setAux] at h; right; exact h
  | cons kv' m ih =>
    by_cases hk : kv'.1 = k
    · rw [setAux, if_pos hk] at h
      rcases List.mem_cons.mp h with h | h
      · right; exact h
      · left; exact List.mem_cons_of_mem _ h
    · rw [setAux, if_neg hk] at h
      rcases List.mem_cons.mp h with h | h
      · left; simp [h]
      · rcases ih h with h' | h'
        · left; exact List.mem_cons_of_mem _ h'
        · right; exact h'

theorem mem_entries_set {m : JsMap α β} {k : α} {v : β} {kv : α × β}
    (h : kv ∈ (m.set k v).entries) : kv ∈ m.entries ∨ kv = (k, v) :=
  mem_setAux h

theorem mem_delAux {m : List (α × β)} {k : α} {kv : α × β}
    (h : kv ∈ delAux m k) : kv ∈ m := by
  induction m with
  | nil => simp [delAux] at h
  | cons kv' m ih =>
    by_cases hk : kv'.1 = k
    · rw [delAux, if_pos hk] at h
      exact List.mem_cons_of_mem _ h
    · rw [delAux, if_neg hk] at h
      rcases List.mem_cons.mp h with h | h
      · simp [h]
      · exact List.mem_cons_of_mem _ (ih h)

theorem mem_entries_del {m : JsMap α β} {k : α} {kv : α × β}
    (h : kv ∈ (m.del k).entries) : kv ∈ m.entries :=
  mem_delAux h

theorem keys_setAux (m : List (α × β)) (k : α) (v : β) :
    (setAux m k v).map Prod.fst = if k ∈ m.map Prod.fst then m.map Prod.fst
      else m.map Prod.fst ++ [k] := by
  induction m with
  | nil => simp [setAux]
  | cons kv m ih =>
    by_cases hk : kv.1 = k
    · simp [setAux, hk]
    · have hne : ¬ k = kv.1 := fun he => hk he.symm
      by_cases hmem : k ∈ m.map Prod.fst
      · simp [setAux, hk, ih, hmem, hne]
      · simp [setAux, hk, ih, hmem, hne]

theorem nodupKeys_set {m : JsMap α β} (h : m.NodupKeys) (k : α) (v : β) :
    (m.set k v).NodupKeys := by
  unfold NodupKeys at h ⊢
  show (setAux m.entries k v).map Prod.fst |>.Nodup
  rw [keys_setAux]
  by_cases hmem : k ∈ m.entries.map Prod.fst
  · simpa [hmem] using h
  · simp only [hmem, if_false]
    exact List.Nodup.append h (List.nodup_singleton k)
      (fun a ha hb => hmem ((List.mem_singleton.mp hb) ▸ ha))

theorem getAux_eq_some_of_mem {m : List (α × β)} {k : α} {v : β}
    (hnd : (m.map Prod.fst).Nodup) (h : (k, v) ∈ m) : getAux m k = some v := by
  induction m with
  | nil => simp at h
  | cons kv m ih =>
    simp only [List.map_cons, List.nodup_cons] at hnd
    rcases List.mem_cons.mp h with h | h
    · rw [← h, getAux_cons, if_pos rfl]
    · have hne : kv.1 ≠ k := by
        intro he
        exact hnd.1 (he ▸ List.mem_map_of_mem Prod.fst h)
      rw [getAux_cons, if_neg hne]
      exact ih hnd.2 h

theorem get?_eq_some_of_mem {m : JsMap α β} {k : α} {v : β}
    (hnd : m.NodupKeys) (h : (k, v) ∈ m.entries) : m.get? k = some v :=
  getAux_eq_some_of_mem hnd h

end JsMap

/-- The last element of a list (`none` on the empty list): the value a
JS `Map` holds for a key after the per-line `map.set` calls of
`loadBlock` have all run. -/
def lastOf {α : Type} : List α → Option α
  | [] => none
  | [a] => some a
  | _ :: b :: l => lastOf (b :: l)

@[simp] theorem lastOf_nil {α : Type} : (lastOf ([] : List α)) = none := rfl

@[simp] theorem lastOf_singleton {α : Type} (a : α) : lastOf [a] = some a := rfl

theorem lastOf_cons_cons {α : Type} (a b : α) (l : List α) :
    lastOf (a :: b :: l) = lastOf (b :: l) := rfl

theorem lastOf_isSome {α : Type} (b : α) (l : List α) :
    ∃ x, lastOf (b :: l) = some x := by
  induction l generalizing b with
  | nil => exact ⟨b, rfl⟩
  | cons c l ih =>
    obtain ⟨x, hx⟩ := ih c
    exact ⟨x, by rw [lastOf_cons_cons]; exact hx⟩

theorem lastOf_cons {α : Type} (a : α) (l : List α) :
    lastOf (a :: l) = match lastOf l with | none => some a | some b => some b := by
  cases l with
  | nil => rfl
  | cons b l =>
    obtain ⟨x, hx⟩ := lastOf_isSome b l
    rw [lastOf_cons_cons, hx]

theorem lastOf_eq_none_iff {α : Type} {l : List α} :
    lastOf l = none ↔ l = [] := by
  cases l with
  | nil => simp
  | cons b l =>
    obtain ⟨x, hx⟩ := lastOf_isSome b l
    simp [hx]

theorem lastOf_mem {α : Type} {l : List α} {a : α} (h : lastOf l = some a) :
    a ∈ l := by
  induction l with
  | nil => simp at h
  | cons b l ih =>
    cases l with
    | nil =>
      rw [lastOf_singleton] at h
      injection h with h
      simp [h]
    | cons c l2 =>
      rw [lastOf_cons_cons] at h
      exact List.mem_cons_of_mem _ (ih h)

/-- In a list that is pairwise related by `R`, every member is either the
last element or related to it. -/
theorem lastOf_rel {α : Type} {R : α → α → Prop} {l : List α} {a z : α}
    (hp : l.Pairwise R) (ha : a ∈ l) (hz : lastOf l = some z) :
    a = z ∨ R a z := by
  induction l with
  | nil => simp at ha
  | cons b l ih =>
    cases l with
    | nil =>
      rw [lastOf_singleton] at hz
      injection hz with hz
      rcases List.mem_singleton.mp ha with h
      left
      rw [h, hz]
    | cons c l2 =>
      rw [lastOf_cons_cons] at hz
      rcases List.mem_cons.mp ha with h | h
      · right
        rw [h]
        exact (List.pairwise_cons.mp hp).1 _ (lastOf_mem hz)
      · exact ih (List.pairwise_cons.mp hp).2 h hz

/-! ## Records and the codec

A block file is a sequence of newline-terminated JSON lines.  The claims
under study quantify over directories whose lines all parse, so a line is
modelled structurally as a `Rec`: the reserved fields `id`, `_oid`,
`_rid`, `_seq` plus the remaining user fields, carried opaquely as the
`payload` string fragment.  `JSON.parse` of a stored line is then the
identity on `Rec`, and `JSON.stringify` is `serializeRec`; the source
measures record sizes with `record.length` on the JSON text, modelled by
`recLen`. -/

/-- A parsed record line: reserved metadata plus the opaque serialized
remainder of the user object. -/
structure Rec where
  id : String
  _oid : Nat
  _rid : Nat
  _seq : Nat
  payload : String
deriving DecidableEq, Repr

/-- `JSON.stringify` of a record: one JSON object per line (field order
is not significant; the engine only stores and re-parses the exact
text). -/
def serializeRec (r : Rec) : String :=
  "\x7b\"id\":\"" ++ r.id ++ "\",\"_oid\":" ++ toString r._oid ++
    ",\"_rid\":" ++ toString r._rid ++ ",\"_seq\":" ++ toString r._seq ++
    r.payload ++ "\x7d"

/-- `record.length` of the serialized line, as used by the stale-byte
accounting in `calculateStaleBytes`/`updateStaleBytes`. -/
def recLen (r : Rec) : Nat := (serializeRec r).length

/-- A `MapEntry` of `src/internal/state.ts`: per-record metadata plus the
exact record text (kept structurally; the optional `cache` projection is
not used by any operation under study and is omitted). -/
structure MapEntry where
  _oid : Nat
  _rid : Nat
  _seq : Nat
  id : String
  bid : String
  record : Rec
deriving DecidableEq, Repr

/-- The entry `loadBlock` builds for one parsed line. -/
def mkEntry (bid : String) (r : Rec) : MapEntry :=
  { _oid := r._oid, _rid := r._rid, _seq := r._seq, id := r.id, bid := bid, record := r }

/-- `loadBlock` (src/internal/state.ts): read a block's lines in order
and key them by `id` in a fresh `Map` — a later line for the same id
overwrites an earlier one. -/
def loadBlock (bid : String) (lines : List Rec) : JsMap String MapEntry :=
  lines.foldl (fun m r => m.set r.id (mkEntry bid r)) JsMap.empty

/-- One step of `mergeBlockMaps`' inner loop: an incoming `(key, value)`
pair against the target map.  The existing entry survives only when its
`_seq` is strictly greater. -/
def mergeStep (target : JsMap String MapEntry) (kv : String × MapEntry) :
    JsMap String MapEntry :=
  match target.get? kv.1 with
  | some existing =>
    if existing._seq > kv.2._seq then target else target.set kv.1 kv.2
  | none => target.set kv.1 kv.2

/-- `mergeBlockMaps`' outer loop over one source map. -/
def mergeOne (target m : JsMap String MapEntry) : JsMap String MapEntry :=
  m.foldl mergeStep target

/-- `mergeBlockMaps` (src/internal/state.ts): merge the per-block maps
into `target`, in order; on a `_seq` tie the incoming entry wins
(strict `>` keeps the existing one). -/
def mergeBlockMaps (target : JsMap String MapEntry)
    (maps : List (JsMap String MapEntry)) : JsMap String MapEntry :=
  maps.foldl mergeOne target

/-! ## Blocks, options and the engine state -/

/-- A block file on disk, as seen by recovery: its name and its parsed
lines in file order. -/
structure BlockFile where
  bid : String
  lines : List Rec
deriving DecidableEq, Repr

/-- `BlockInfo` (block registry entry).  `staleBytes` is an integer
because `calculateStaleBytes` computes `size - liveBytes` with JS
numbers. -/
structure BlockInfo where
  bid : String
  size : Nat
  staleBytes : Int
  locked : Bool
deriving DecidableEq, Repr

/-- `JsDbOptions` after validation by `createOptions`. -/
structure JsDbOptions where
  dirPath : String
  maxBlockSize : Int
  dataSyncDelay : Int
  staleDataThreshold : Rat
  compactDelay : Int
  cachedFields : List String
deriving DecidableEq, Repr

/-- The caller-supplied `Partial<JsDbOptions>`. -/
structure PartialOptions where
  dirPath : Option String
  maxBlockSize : Option Int
  dataSyncDelay : Option Int
  staleDataThreshold : Option Rat
  compactDelay : Option Int
  cachedFields : Option (List String)
deriving DecidableEq, Repr

/-- `createOptions` (src/internal/state.ts).  JavaScript truthiness
gates each override: a numeric field is applied only when present and
non-zero (`if (options.x)`), except `dataSyncDelay`, which is applied
whenever it is present and an integer (`!== undefined &&
Number.isInteger`). -/
def createOptions (options : PartialOptions) : Except String JsDbOptions := do
  let mut opts : JsDbOptions :=
    { dirPath := ""
      maxBlockSize := 1024 * 1024 * 8
      dataSyncDelay := 1000
      staleDataThreshold := 1 / 10
      compactDelay := 1000 * 60 * 60 * 24
      cachedFields := [] }
  match options.dirPath with
  | none => throw "dirPath is required"
  | some d =>
    if d = "" then throw "dirPath is required"
    opts := { opts with dirPath := d }
  match options.maxBlockSize with
  | some n =>
    if n ≠ 0 then
      if n < 1024 ∨ n % 1024 ≠ 0 then throw "maxBlockSize must be at least 1024 KB"
      opts := { opts with maxBlockSize := n }
  | none => pure ()
  match options.dataSyncDelay with
  | some d => opts := { opts with dataSyncDelay := d }
  | none => pure ()
  match options.staleDataThreshold with
  | some q =>
    if q ≠ 0 then
      if q < 0 ∨ q > 1 then throw "staleDataThreshold must be between 0 and 1"
      opts := { opts with staleDataThreshold := q }
  | none => pure ()
  match options.compactDelay with
  | some c =>
    if c ≠ 0 then
      opts := { opts with compactDelay := c }
  | none => pure ()
  match options.cachedFields with
  | some fs =>
    if fs.length > 0 then
      opts := { opts with cachedFields := fs }
  | none => pure ()
  return opts

/-- `DbState`: the in-memory engine state.  Timers and the storage handle
cache are not modelled; `gen` is the fresh-name supply standing for
`generateId()`. -/
structure DbState where
  idMap : JsMap String MapEntry
  ridMap : JsMap Nat MapEntry
  blocks : List BlockInfo
  lastUsedBid : Int
  seqNo : Nat
  ridNo : Nat
  opts : JsDbOptions
  opened : Bool
  gen : Nat
deriving DecidableEq, Repr

/-- The block name `generateId()` + `BLOCK_EXTENSION` produces for the
`n`-th fresh name. -/
def genName (n : Nat) : String := "gen" ++ toString n ++ ".block"

/-- `sequenceNo(map, Math.max, field)` (src/internal/state.ts): maximum
of a field over the entries of a map, starting from 0. -/
def sequenceNo (src : JsMap Nat MapEntry) (field : MapEntry → Nat) : Nat :=
  src.foldl (fun value kv => max value (field kv.2)) 0

/-- The on-disk byte size of a block file: each line plus its
newline (what `getBlockStats` reports after the writes of the lines). -/
def blockFileSize (b : BlockFile) : Nat :=
  (b.lines.map (fun r => recLen r + 1)).sum

/-- `calculateStaleBytes` (src/internal/state.ts): recompute the live
bytes per block from the rid-map and set `staleBytes = size - live`. -/
def calculateStaleBytes (state : DbState) : DbState :=
  let totalData : JsMap String Nat :=
    state.ridMap.foldl
      (fun td kv =>
        td.set kv.2.bid ((td.get? kv.2.bid).getD 0 + recLen kv.2.record))
      JsMap.empty
  { state with
    blocks := state.blocks.map (fun block =>
      { block with
        staleBytes := (block.size : Int) - ((totalData.get? block.bid).getD 0 : Int) }) }

/-- `createDbState` (src/internal/state.ts): recovery.  Scans the block
files, loads each into a per-block map, merges them, rebuilds the
rid-map, initializes `seqNo`/`ridNo` from the rid-map, creates one empty
block if the directory held none, and recomputes stale bytes.  Note that
no tombstone entry is removed from the merged map. -/
def createDbState (opts : JsDbOptions) (dir : List BlockFile) : DbState :=
  let blocks : List BlockInfo :=
    dir.map (fun b => { bid := b.bid, size := blockFileSize b, staleBytes := 0, locked := false })
  let blockMaps := dir.map (fun b => loadBlock b.bid b.lines)
  let idMap := mergeBlockMaps JsMap.empty blockMaps
  let ridMap : JsMap Nat MapEntry :=
    idMap.foldl (fun rm kv => rm.set kv.2._rid kv.2) JsMap.empty
  let seqNo := sequenceNo ridMap (fun e => e._seq)
  let ridNo := sequenceNo ridMap (fun e => e._rid)
  let blocks :=
    if blocks.isEmpty then
      [{ bid := genName 0, size := 0, staleBytes := 0, locked := false }]
    else blocks
  let state : DbState :=
    { idMap := idMap
      ridMap := ridMap
      blocks := blocks
      lastUsedBid := 0
      seqNo := seqNo
      ridNo := ridNo
      opts := opts
      opened := true
      gen := if dir.isEmpty then 1 else 0 }
  calculateStaleBytes state

/-! ## Read operations -/

/-- `hasItem` (src/internal/state.ts).  `isValidId` rejects a falsy id;
`dbIsOpen` rejects a closed engine; a tombstone entry (`_oid = 2`) left
in the map reads as absent. -/
def hasItem (state : DbState) (id : String) : Except String Bool :=
  if id = "" then throw "id is required"
  else if ¬ state.opened then throw "Db should be opened before operation."
  else
    match state.idMap.get? id with
    | none => return false
    | some entry =>
      if entry._oid = 2 then return false
      else return true

/-- `getItem` (src/internal/state.ts).  Parses the stored record text
(the identity in this model), re-validates the id, and returns the
parsed value. -/
def getItem (state : DbState) (id : String) : Except String (Option Rec) :=
  if id = "" then throw "id is required"
  else if ¬ state.opened then throw "Db should be opened before operation."
  else
    match state.idMap.get? id with
    | none => return none
    | some entry =>
      if entry._oid = 2 then return none
      else
        let value := entry.record
        if value.id = "" then throw "INTERNAL: id missing in value"
        else if value.id ≠ id then throw "INTERNAL: id mismatch"
        else return some value

/-! ## Block allocation and stale-byte bookkeeping -/

/-- The scan loop of `getFreeBlock`: forward from index `i`, return the
first block that is unlocked and under the size cap. -/
def scanBlocks (blocks : List BlockInfo) (maxSize : Int) (i : Nat) :
    Option (Nat × String) :=
  if h : i < blocks.length then
    let p := blocks.get ⟨i, h⟩
    if ¬ p.locked ∧ (p.size : Int) < maxSize then some (i, p.bid)
    else scanBlocks blocks maxSize (i + 1)
  else none
termination_by blocks.length - i

/-- The block-selection part of `getFreeBlock`: the current block at
`startIdx` if it is unlocked and under the size cap, else the forward
scan from `startIdx + 1`. -/
def selectBlock (blocks : List BlockInfo) (maxSize : Int) (startIdx : Nat) :
    Option (Nat × String) :=
  match blocks[startIdx]? with
  | some p =>
    if ¬ p.locked ∧ (p.size : Int) < maxSize then some (startIdx, p.bid)
    else scanBlocks blocks maxSize (startIdx + 1)
  | none => scanBlocks blocks maxSize (startIdx + 1)

/-- `getFreeBlock` (src/internal/state.ts): try the block at
`lastUsedBid`, else scan forward, else synthesize a fresh block with a
generated name, appending it to the registry.  The `if (!bid)` guard in
the source also treats a selected block whose name is the empty string
as not found. -/
def getFreeBlock (state : DbState) : String × DbState :=
  let length := state.blocks.length
  let startIdx : Nat :=
    if 0 ≤ state.lastUsedBid ∧ state.lastUsedBid < (length : Int) then
      state.lastUsedBid.toNat
    else 0
  match selectBlock state.blocks state.opts.maxBlockSize startIdx with
  | some ib =>
    if ib.2 = "" then
      (genName state.gen,
        { state with
          blocks := state.blocks ++
            [{ bid := genName state.gen, size := 0, staleBytes := 0, locked := false }]
          lastUsedBid := (length : Int)
          gen := state.gen + 1 })
    else (ib.2, { state with lastUsedBid := (ib.1 : Int) })
  | none =>
    (genName state.gen,
      { state with
        blocks := state.blocks ++
          [{ bid := genName state.gen, size := 0, staleBytes := 0, locked := false }]
        lastUsedBid := (length : Int)
        gen := state.gen + 1 })

/-- `Array.prototype.find` over the registry. -/
def findBlock (blocks : List BlockInfo) (bid : String) : Option BlockInfo :=
  blocks.find? (fun b => decide (b.bid = bid))

/-- Mutate the first block matching the predicate (the effect of
mutating the object returned by `Array.prototype.find`). -/
def updateFirst (p : BlockInfo → Bool) (f : BlockInfo → BlockInfo) :
    List BlockInfo → List BlockInfo
  | [] => []
  | b :: bs => if p b then f b :: bs else b :: updateFirst p f bs

/-- `updateStaleBytes` (src/internal/state.ts): charge the displaced
entry's text length to its block's `staleBytes` (error if that block is
missing), and add the new entry's text length to the destination block's
`size` (silently skipped if the destination is missing). -/
def updateStaleBytes (blocks : List BlockInfo) (newEntry : MapEntry)
    (oldEntry : Option MapEntry) : Except String (List BlockInfo) :=
  match oldEntry with
  | some old =>
    match findBlock blocks old.bid with
    | some _ =>
      .ok (updateFirst (fun b => decide (b.bid = newEntry.bid))
        (fun b => { b with size := b.size + recLen newEntry.record })
        (updateFirst (fun b => decide (b.bid = old.bid))
          (fun b => { b with staleBytes := b.staleBytes + (recLen old.record : Int) })
          blocks))
    | none =>
      .error "INTERNAL:Page not found. We have a page entry but the page is missing."
  | none =>
    .ok (updateFirst (fun b => decide (b.bid = newEntry.bid))
      (fun b => { b with size := b.size + recLen newEntry.record }) blocks)

/-! ## Write operations

User values are JavaScript objects passed by reference; `setItem`
mutates its argument in place.  Object identity is modelled with a
reference heap (`Heap`), references being natural numbers. -/

abbrev Ref := Nat

abbrev Heap := JsMap Nat Rec

/-- The outcome of `setItem`: the new engine state, the heap after the
in-place mutation, the reference `setItem` returns, and the append it
issued to storage (destination block and serialized line). -/
structure SetResult where
  state : DbState
  heap : Heap
  ret : Ref
  written : String × Rec
deriving DecidableEq, Repr

/-- `setItem` (src/internal/state.ts): overlay the reserved fields on
the caller's own object, serialize it, pick a block, install the entry
in both maps, update stale bookkeeping, append, and return the same
object. -/
def setItem (state : DbState) (id : String) (heap : Heap) (value : Ref) :
    Except String SetResult :=
  if id = "" then .error "id is required"
  else if ¬ state.opened then .error "Db should be opened before operation."
  else
    match heap.get? value with
    | none => .error "MODEL: dangling reference"
    | some v0 =>
      let existing := state.idMap.get? id
      let seqNo := state.seqNo + 1
      let rid := match existing with
        | none => state.ridNo + 1
        | some e => e._rid
      let ridNo := match existing with
        | none => state.ridNo + 1
        | some _ => state.ridNo
      let v1 : Rec := { v0 with id := id, _seq := seqNo, _rid := rid, _oid := 1 }
      let heap := heap.set value v1
      let state := { state with seqNo := seqNo, ridNo := ridNo }
      let alloc := getFreeBlock state
      let bid := alloc.1
      let state := alloc.2
      let entry : MapEntry :=
        { _oid := v1._oid, _rid := v1._rid, _seq := v1._seq, id := v1.id,
          bid := bid, record := v1 }
      let state :=
        { state with
          idMap := state.idMap.set v1.id entry
          ridMap := state.ridMap.set v1._rid entry }
      match updateStaleBytes state.blocks entry existing with
      | .error e => .error e
      | .ok blocks =>
        .ok { state := { state with blocks := blocks }, heap := heap,
              ret := value, written := (bid, v1) }

/-- `deleteItem` (src/internal/state.ts): a missing key returns without
any effect; otherwise the entry is evicted from both maps and a
tombstone line (`_oid = 2`, fresh `_seq`, no user fields) is appended to
a chosen block.  The second component of the result is the append the
operation issued, if any. -/
def deleteItem (state : DbState) (id : String) :
    Except String (DbState × Option (String × Rec)) :=
  if id = "" then .error "id is required"
  else if ¬ state.opened then .error "Db should be opened before operation."
  else
    match state.idMap.get? id with
    | none => .ok (state, none)
    | some existing =>
      let state :=
        { state with
          idMap := state.idMap.del id
          ridMap := state.ridMap.del existing._rid }
      let alloc := getFreeBlock state
      let bid := alloc.1
      let state := alloc.2
      let value : Rec :=
        { id := existing.id, _oid := 2, _rid := existing._rid,
          _seq := state.seqNo + 1, payload := "" }
      let state := { state with seqNo := state.seqNo + 1 }
      let tombEntry : MapEntry :=
        { _oid := value._oid, _rid := value._rid, _seq := value._seq,
          id := value.id, bid := bid, record := value }
      match updateStaleBytes state.blocks tombEntry (some existing) with
      | .error e => .error e
      | .ok blocks => .ok ({ state with blocks := blocks }, some (bid, value))

/-! ## The storage backend durability path

`appendToFile` of the node storage backend, observed as the sequence of
I/O effects it performs on one call.  `throttle` (the utility) keeps a
`lastCall` timestamp initialized to 0 and invokes the wrapped function
only when `now - lastCall >= throttleMs`; `appendToFile` constructs a
*fresh* throttled closure on every call and invokes it once, so the
`lastCall` it consults is always the initial 0. -/

inductive IoEvent where
  | write
  | datasync
deriving DecidableEq, Repr

/-- Does a `throttle`d function fire when called at time `now` with the
stored `lastCall`?  (`now - lastCall >= throttleMs` on JS numbers;
`lastCall ≤ now` in every use below.) -/
def throttleFires (lastCall now throttleMs : Nat) : Bool :=
  decide (throttleMs ≤ now - lastCall)

/-- `appendToFile(fd, buffer, sync)` observed as its I/O event trace,
`now` being `Date.now()` at the moment the write callback runs.  With
`sync = 0` it is a synchronous `fs.writeSync` and nothing else; with
`sync > 0` it is an `fs.write` whose callback invokes a freshly created
throttled `fs.fdatasyncSync` (so `lastCall = 0`). -/
def appendToFile (sync : Nat) (now : Nat) : List IoEvent :=
  if sync = 0 then [.write]
  else .write :: (if throttleFires 0 now sync then [.datasync] else [])

/-- Number of file-data syncs in an event trace. -/
def syncCount (evs : List IoEvent) : Nat :=
  evs.countP (fun e => decide (e = .datasync))

/-- Number of OS writes in an event trace. -/
def writeCount (evs : List IoEvent) : Nat :=
  evs.countP (fun e => decide (e = .write))

/-! ## Compaction (src/internal/page.ts)

`compactPage` and the `mergePageMaps` it calls (the contemporaneous
pagegroup revision, whose merge keeps the existing entry only on a
strictly greater `_seq`).  The fresh name `generateId()` produces for
the replacement file is passed explicitly as `newPageId`. -/

/-- A `Page` (open block file handle and registry data). -/
structure Page where
  pageId : String
  locked : Bool
  size : Nat
  staleBytes : Int
deriving DecidableEq, Repr

/-- `mergePageMaps` (pagegroup revision used by `compactPage`): same
merge rule as `mergeBlockMaps` — the existing entry survives only on a
strictly greater `_seq`. -/
def mergePageMaps (target : JsMap String MapEntry)
    (maps : List (JsMap String MapEntry)) : JsMap String MapEntry :=
  maps.foldl mergeOne target

/-- The result of `compactPage`: the rewritten map, the updated pages
list and the replacement page. -/
structure CompactResult where
  map : JsMap String MapEntry
  pages : List Page
  newPage : Page
deriving DecidableEq, Repr

/-- `compactPage` (src/internal/page.ts): refuse a locked page;
otherwise copy every live entry of the page (with `_seq ≥ filterSeqNo`)
into a fresh file, repoint the copies at the new page id, merge them
back (newer wins on `_seq`, so the unchanged `_seq` values tie and the
copies win), replace the page in the pages list, and purge entries still
pointing at the old page.  `splice(idx, 1)` with `idx = -1` (page not
found) removes the last element, faithfully modelled by `dropLast`. -/
def compactPage (map : JsMap String MapEntry) (pages : List Page)
    (page : Page) (filterSeqNo : Nat) (newPageId : String) :
    Except String CompactResult :=
  if page.locked then .error "Page is already locked"
  else
    let newPageName := newPageId ++ ".page"
    let copied :=
      map.entries.foldl
        (fun (acc : JsMap String MapEntry × Nat) kv =>
          if kv.2._seq < filterSeqNo then acc
          else if kv.2.bid = page.pageId then
            (acc.1.set kv.1 { kv.2 with bid := newPageName },
              acc.2 + recLen kv.2.record)
          else acc)
        (JsMap.empty, 0)
    let newMap := copied.1
    let newPage : Page :=
      { pageId := newPageName, locked := false, size := copied.2, staleBytes := 0 }
    let map := mergePageMaps map [newMap]
    let pages :=
      match pages.findIdx? (fun p => decide (p.pageId = page.pageId)) with
      | some i => pages.eraseIdx i
      | none => pages.dropLast
    let pages := pages ++ [newPage]
    let map : JsMap String MapEntry :=
      ⟨map.entries.filter (fun kv => ¬ kv.2.bid = page.pageId)⟩
    .ok { map := map, pages := pages, newPage := newPage }

/-! ## Lookup characterizations

What `loadBlock`, `mergeBlockMaps` and recovery hold for one key. -/

/-- After `loadBlock`, the entry for a key is the *last* line of the file
bearing that id (later `map.set` calls overwrite earlier ones). -/
theorem loadBlock_foldl_get? (bid : String) (lines : List Rec) (k : String) :
    ∀ m0 : JsMap String MapEntry,
      ((lines.foldl (fun m r => m.set r.id (mkEntry bid r)) m0).get? k) =
        match lastOf (lines.filter (fun r => r.id = k)) with
        | some r => some (mkEntry bid r)
        | none => m0.get? k := by
  induction lines with
  | nil => intro m0; simp
  | cons r lines ih =>
    intro m0
    rw [List.foldl_cons, ih]
    by_cases hr : r.id = k
    · rw [List.filter_cons_of_pos (by simpa using hr), lastOf_cons]
      cases hl : lastOf (lines.filter (fun r => decide (r.id = k))) with
      | none =>
        show (m0.set r.id (mkEntry bid r)).get? k = some (mkEntry bid r)
        rw [hr]
        exact JsMap.get?_set_self m0 k (mkEntry bid r)
      | some r2 => rfl
    · rw [List.filter_cons_of_neg (by simpa using hr)]
      cases hl : lastOf (lines.filter (fun r => decide (r.id = k))) with
      | none =>
        show (m0.set r.id (mkEntry bid r)).get? k = m0.get? k
        exact JsMap.get?_set_ne m0 r.id k (mkEntry bid r) hr
      | some r2 => rfl

theorem loadBlock_get? (bid : String) (lines : List Rec) (k : String) :
    (loadBlock bid lines).get? k =
      (lastOf (lines.filter (fun r => r.id = k))).map (mkEntry bid) := by
  unfold loadBlock
  rw [loadBlock_foldl_get?]
  cases lastOf (lines.filter (fun r => decide (r.id = k))) <;> rfl

/-- Folding `set` keeps the key list duplicate-free. -/
theorem loadBlock_nodup (bid : String) (lines : List Rec) :
    (loadBlock bid lines).NodupKeys := by
  unfold loadBlock
  suffices h : ∀ m0 : JsMap String MapEntry, m0.NodupKeys →
      (lines.foldl (fun m r => m.set r.id (mkEntry bid r)) m0).NodupKeys by
    exact h JsMap.empty (by simp [JsMap.empty, JsMap.NodupKeys])
  induction lines with
  | nil => intro m0 h0; simpa using h0
  | cons r lines ih =>
    intro m0 h0
    rw [List.foldl_cons]
    exact ih _ (JsMap.nodupKeys_set h0 _ _)

/-- The per-incoming-entry combination rule of `mergeBlockMaps`: the
existing entry survives only on a strictly greater `_seq`. -/
def combineEntry (acc : Option MapEntry) (v : MapEntry) : Option MapEntry :=
  match acc with
  | none => some v
  | some e => if e._seq > v._seq then some e else some v

/-- `combineEntry` lifted to an optional incoming entry. -/
def combineOpt (acc : Option MapEntry) (ov : Option MapEntry) : Option MapEntry :=
  match ov with
  | none => acc
  | some v => combineEntry acc v

theorem mergeStep_get?_self (t : JsMap String MapEntry) (kv : String × MapEntry) :
    (mergeStep t kv).get? kv.1 = combineEntry (t.get? kv.1) kv.2 := by
  unfold mergeStep combineEntry
  cases h : t.get? kv.1 with
  | none => exact JsMap.get?_set_self t kv.1 kv.2
  | some e =>
    show (if e._seq > kv.2._seq then t else t.set kv.1 kv.2).get? kv.1 =
      if e._seq > kv.2._seq then some e else some kv.2
    by_cases hgt : e._seq > kv.2._seq
    · rw [if_pos hgt, if_pos hgt, h]
    · rw [if_neg hgt, if_neg hgt]
      exact JsMap.get?_set_self t kv.1 kv.2

theorem mergeStep_get?_ne (t : JsMap String MapEntry) (kv : String × MapEntry)
    (k : String) (h : kv.1 ≠ k) :
    (mergeStep t kv).get? k = t.get? k := by
  unfold mergeStep
  cases ht : t.get? kv.1 with
  | none => exact JsMap.get?_set_ne t kv.1 k kv.2 h
  | some e =>
    show (if e._seq > kv.2._seq then t else t.set kv.1 kv.2).get? k = t.get? k
    by_cases hgt : e._seq > kv.2._seq
    · rw [if_pos hgt]
    · rw [if_neg hgt]
      exact JsMap.get?_set_ne t kv.1 k kv.2 h

theorem mergeStep_nodup {t : JsMap String MapEntry} (h : t.NodupKeys)
    (kv : String × MapEntry) : (mergeStep t kv).NodupKeys := by
  unfold mergeStep
  cases ht : t.get? kv.1 with
  | none => exact JsMap.nodupKeys_set h kv.1 kv.2
  | some e =>
    show (if e._seq > kv.2._seq then t else t.set kv.1 kv.2).NodupKeys
    by_cases hgt : e._seq > kv.2._seq
    · rw [if_pos hgt]; exact h
    · rw [if_neg hgt]; exact JsMap.nodupKeys_set h kv.1 kv.2

/-- One source map merges per-key, at the level of the entry list. -/
theorem mergeOneAux_get? (l : List (String × MapEntry)) (k : String)
    (hl : (l.map Prod.fst).Nodup) :
    ∀ t : JsMap String MapEntry,
      (l.foldl mergeStep t).get? k = combineOpt (t.get? k) (JsMap.getAux l k) := by
  induction l with
  | nil => intro t; rfl
  | cons kv l ih =>
    intro t
    simp only [List.map_cons, List.nodup_cons] at hl
    rw [List.foldl_cons]
    by_cases hk : kv.1 = k
    · have hnot : JsMap.getAux l k = none := by
        apply JsMap.getAux_eq_none_of_not_mem_keys
        rw [← hk]
        exact hl.1
      rw [ih hl.2 (mergeStep t kv), hnot, JsMap.getAux_cons, if_pos hk]
      show (mergeStep t kv).get? k = _
      rw [← hk, mergeStep_get?_self]
      rfl
    · rw [ih hl.2 (mergeStep t kv), JsMap.getAux_cons, if_neg hk,
        mergeStep_get?_ne t kv k hk]

/-- One source map merges per-key: the result for `k` combines the
target's entry with the source's entry for `k` (source keys are
distinct, so at most one inner-loop step touches `k`). -/
theorem mergeOne_get? (m t : JsMap String MapEntry) (k : String)
    (hm : m.NodupKeys) :
    (mergeOne t m).get? k = combineOpt (t.get? k) (m.get? k) :=
  mergeOneAux_get? m.entries k hm t

theorem mergeOneAux_nodup (l : List (String × MapEntry)) :
    ∀ t : JsMap String MapEntry, t.NodupKeys → (l.foldl mergeStep t).NodupKeys := by
  induction l with
  | nil => intro t h; exact h
  | cons kv l ih => intro t h; exact ih _ (mergeStep_nodup h kv)

theorem mergeOne_nodup {t : JsMap String MapEntry} (m : JsMap String MapEntry)
    (h : t.NodupKeys) : (mergeOne t m).NodupKeys :=
  mergeOneAux_nodup m.entries t h

/-- `mergeBlockMaps` per key: fold the per-map candidates, in merge
order, through the combination rule. -/
theorem mergeBlockMaps_get? (maps : List (JsMap String MapEntry))
    (t : JsMap String MapEntry) (k : String)
    (h : ∀ m ∈ maps, m.NodupKeys) :
    (mergeBlockMaps t maps).get? k =
      (maps.map (fun m => m.get? k)).foldl combineOpt (t.get? k) := by
  unfold mergeBlockMaps
  induction maps generalizing t with
  | nil => rfl
  | cons m maps ih =>
    rw [List.foldl_cons, List.map_cons, List.foldl_cons,
      ih (mergeOne t m) (fun m hm => h m (List.mem_cons_of_mem _ hm)),
      mergeOne_get? m t k (h m (List.mem_cons_self m maps))]

/-- Folding through `combineOpt` just skips the `none` candidates. -/
theorem foldl_combineOpt_filterMap (cs : List (Option MapEntry))
    (acc : Option MapEntry) :
    cs.foldl combineOpt acc = (cs.filterMap id).foldl combineEntry acc := by
  induction cs generalizing acc with
  | nil => rfl
  | cons c cs ih =>
    cases c with
    | none =>
      rw [List.foldl_cons]
      have h : List.filterMap id (none :: cs) = List.filterMap id cs := by simp
      rw [h]
      exact ih acc
    | some v =>
      rw [List.foldl_cons]
      have h : List.filterMap id (some v :: cs) = v :: List.filterMap id cs := by simp
      rw [h, List.foldl_cons]
      exact ih _

/-- The maximum `_seq` over a candidate list (0 when empty). -/
def maxSeqL (es : List MapEntry) : Nat :=
  es.foldl (fun a e => max a e._seq) 0

theorem maxSeqL_append_singleton (es : List MapEntry) (e : MapEntry) :
    maxSeqL (es ++ [e]) = max (maxSeqL es) e._seq := by
  unfold maxSeqL
  rw [List.foldl_append]
  rfl

theorem foldl_max_le_init {es : List MapEntry} (a : Nat) :
    a ≤ es.foldl (fun a e => max a e._seq) a := by
  induction es generalizing a with
  | nil => exact le_refl a
  | cons e es ih =>
    rw [List.foldl_cons]
    exact le_trans (le_max_left a e._seq) (ih _)

theorem foldl_max_ge_mem {es : List MapEntry} {x : MapEntry} (hx : x ∈ es) :
    ∀ a : Nat, x._seq ≤ es.foldl (fun a e => max a e._seq) a := by
  induction es with
  | nil => simp at hx
  | cons e es ih =>
    intro a
    rw [List.foldl_cons]
    rcases List.mem_cons.mp hx with h | h
    · exact le_trans (h ▸ le_max_right a e._seq) (foldl_max_le_init _)
    · exact ih h _

theorem le_maxSeqL {es : List MapEntry} {x : MapEntry} (hx : x ∈ es) :
    x._seq ≤ maxSeqL es := foldl_max_ge_mem hx 0

theorem lastOf_append_singleton {α : Type} (l : List α) (a : α) :
    lastOf (l ++ [a]) = some a := by
  induction l with
  | nil => rfl
  | cons x l ih =>
    cases hl : l ++ [a] with
    | nil => exact absurd hl (by simp)
    | cons y l2 =>
      show lastOf (x :: l ++ [a]) = some a
      rw [List.cons_append, hl, lastOf_cons_cons, ← hl, ih]

theorem combineEntry_ne_none (acc : Option MapEntry) (v : MapEntry) :
    combineEntry acc v ≠ none := by
  cases acc with
  | none => simp [combineEntry]
  | some e =>
    unfold combineEntry
    by_cases h : e._seq > v._seq
    · simp [h]
    · simp [h]

theorem foldl_combineEntry_eq_none {es : List MapEntry} {acc : Option MapEntry}
    (h : es.foldl combineEntry acc = none) : acc = none ∧ es = [] := by
  induction es generalizing acc with
  | nil => exact ⟨h, rfl⟩
  | cons v es ih =>
    rw [List.foldl_cons] at h
    exact absurd (ih h).1 (combineEntry_ne_none acc v)

/-- The merge rule, defined from the spec's words: for each id keep the
candidate with the higher `_seq`; on a tie keep the later-merged one.
That is: the last candidate attaining the maximal `_seq`. -/
def mergeWinnerSpec (cands : List MapEntry) : Option MapEntry :=
  lastOf (cands.filter (fun e => e._seq = maxSeqL cands))

/-- The fold `mergeBlockMaps` performs on one key's candidates computes
precisely the spec's merge rule, and a winner always carries the maximal
`_seq`. -/
theorem foldl_combineEntry_spec (es : List MapEntry) :
    es.foldl combineEntry none = mergeWinnerSpec es ∧
    (∀ a, es.foldl combineEntry none = some a → a._seq = maxSeqL es) := by
  induction es using List.reverseRecOn with
  | nil =>
    refine ⟨rfl, ?_⟩
    intro a h
    simp at h
  | append_singleton es e ih =>
    obtain ⟨ihM, ihA⟩ := ih
    rw [List.foldl_append, List.foldl_cons, List.foldl_nil]
    cases hf : es.foldl combineEntry none with
    | none =>
      obtain ⟨-, hes⟩ := foldl_combineEntry_eq_none hf
      subst hes
      refine ⟨?_, ?_⟩
      · show some e = mergeWinnerSpec [e]
        unfold mergeWinnerSpec maxSeqL
        simp [lastOf]
      · intro a h
        show a._seq = maxSeqL [e]
        unfold combineEntry at h
        simp at h
        unfold maxSeqL
        simp [← h]
    | some a =>
      have haseq : a._seq = maxSeqL es := ihA a hf
      show (if a._seq > e._seq then some a else some e) = mergeWinnerSpec (es ++ [e]) ∧
        ∀ b, (if a._seq > e._seq then some a else some e) = some b →
          b._seq = maxSeqL (es ++ [e])
      by_cases hgt : a._seq > e._seq
      · rw [if_pos hgt]
        have hmax : maxSeqL (es ++ [e]) = maxSeqL es := by
          rw [maxSeqL_append_singleton]
          exact Nat.max_eq_left (le_of_lt (haseq ▸ hgt))
        have hfe : (es ++ [e]).filter (fun x => decide (x._seq = maxSeqL (es ++ [e]))) =
            es.filter (fun x => decide (x._seq = maxSeqL es)) := by
          rw [List.filter_append, hmax]
          have : [e].filter (fun x => decide (x._seq = maxSeqL es)) = [] := by
            have hne : ¬ e._seq = maxSeqL es := by
              intro hcontra
              rw [← haseq] at hcontra
              exact absurd hgt (by rw [hcontra]; exact lt_irrefl _)
            simp [hne]
          rw [this, List.append_nil]
        constructor
        · unfold mergeWinnerSpec
          rw [hfe, ← hf, ihM]
          rfl
        · intro b hb
          injection hb with hb
          rw [← hb, haseq, hmax]
      · rw [if_neg hgt]
        have hle : maxSeqL es ≤ e._seq := haseq ▸ Nat.le_of_not_lt hgt
        have hmax : maxSeqL (es ++ [e]) = e._seq := by
          rw [maxSeqL_append_singleton]
          exact Nat.max_eq_right hle
        constructor
        · unfold mergeWinnerSpec
          rw [hmax, List.filter_append]
          have he : [e].filter (fun x => decide (x._seq = e._seq)) = [e] := by simp
          rw [he, lastOf_append_singleton]
        · intro b hb
          injection hb with hb
          rw [← hb, hmax]

/-- `mergeBlockMaps` from an empty target computes, for every key, the
spec's merge rule over the per-map candidates in merge order. -/
theorem mergeBlockMaps_winner (maps : List (JsMap String MapEntry)) (k : String)
    (h : ∀ m ∈ maps, m.NodupKeys) :
    (mergeBlockMaps JsMap.empty maps).get? k =
      mergeWinnerSpec (maps.filterMap (fun m => m.get? k)) := by
  rw [mergeBlockMaps_get? maps JsMap.empty k h]
  show (maps.map (fun m => m.get? k)).foldl combineOpt none = _
  rw [foldl_combineOpt_filterMap]
  have : (maps.map (fun m => m.get? k)).filterMap id =
      maps.filterMap (fun m => m.get? k) := by
    rw [List.filterMap_map]
    rfl
  rw [this]
  exact (foldl_combineEntry_spec _).1

/-! ## Recovery: what the merged index holds for one key -/

/-- All lines for an id across the block files, in directory order then
file order. -/
def linesFor : List BlockFile → String → List Rec
  | [], _ => []
  | b :: dir, k => b.lines.filter (fun r => r.id = k) ++ linesFor dir k

theorem mem_linesFor {dir : List BlockFile} {k : String} {r : Rec} :
    r ∈ linesFor dir k ↔ ∃ b ∈ dir, r ∈ b.lines ∧ r.id = k := by
  induction dir with
  | nil => simp [linesFor]
  | cons b dir ih =>
    unfold linesFor
    rw [List.mem_append, ih]
    constructor
    · rintro (h | ⟨b2, hb2, hr, hid⟩)
      · rcases List.mem_filter.mp h with ⟨hr, hid⟩
        exact ⟨b, List.mem_cons_self b dir, hr, by simpa using hid⟩
      · exact ⟨b2, List.mem_cons_of_mem _ hb2, hr, hid⟩
    · rintro ⟨b2, hb2, hr, hid⟩
      rcases List.mem_cons.mp hb2 with h | h
      · left
        subst h
        exact List.mem_filter.mpr ⟨hr, by simpa using hid⟩
      · right
        exact ⟨b2, h, hr, hid⟩

/-- The per-file candidates recovery merges for a key: for each file, the
last line bearing the id (as a `MapEntry`). -/
def recoveryCands (dir : List BlockFile) (k : String) : List MapEntry :=
  (dir.map (fun b => loadBlock b.bid b.lines)).filterMap (fun m => m.get? k)

theorem createDbState_idMap (opts : JsDbOptions) (dir : List BlockFile) :
    (createDbState opts dir).idMap =
      mergeBlockMaps JsMap.empty (dir.map (fun b => loadBlock b.bid b.lines)) := rfl

theorem createDbState_opened (opts : JsDbOptions) (dir : List BlockFile) :
    (createDbState opts dir).opened = true := rfl

theorem createDbState_get?_winner (opts : JsDbOptions) (dir : List BlockFile)
    (k : String) :
    (createDbState opts dir).idMap.get? k = mergeWinnerSpec (recoveryCands dir k) := by
  rw [createDbState_idMap, mergeBlockMaps_winner]
  · rfl
  · intro m hm
    rcases List.mem_map.mp hm with ⟨b, -, hb⟩
    rw [← hb]
    exact loadBlock_nodup b.bid b.lines

theorem mem_recoveryCands {dir : List BlockFile} {k : String} {e : MapEntry} :
    e ∈ recoveryCands dir k ↔
      ∃ b ∈ dir, ∃ r, lastOf (b.lines.filter (fun r => r.id = k)) = some r ∧
        e = mkEntry b.bid r := by
  unfold recoveryCands
  rw [List.mem_filterMap]
  constructor
  · rintro ⟨m, hm, hget⟩
    rcases List.mem_map.mp hm with ⟨b, hb, rfl⟩
    rw [loadBlock_get?] at hget
    rcases Option.map_eq_some'.mp hget with ⟨r, hr, he⟩
    exact ⟨b, hb, r, hr, he.symm⟩
  · rintro ⟨b, hb, r, hr, rfl⟩
    refine ⟨loadBlock b.bid b.lines, List.mem_map_of_mem _ hb, ?_⟩
    rw [loadBlock_get?, hr]
    rfl

theorem maxSeqL_le {es : List MapEntry} {S : Nat}
    (h : ∀ x ∈ es, x._seq ≤ S) : maxSeqL es ≤ S := by
  unfold maxSeqL
  suffices haux : ∀ a : Nat, a ≤ S → es.foldl (fun a e => max a e._seq) a ≤ S by
    exact haux 0 (Nat.zero_le S)
  induction es with
  | nil => intro a ha; exact ha
  | cons e es ih =>
    intro a ha
    rw [List.foldl_cons]
    exact ih (fun x hx => h x (List.mem_cons_of_mem _ hx))
      _ (max_le ha (h e (List.mem_cons_self e es)))

/-- The central recovery lemma: if every line for `k` is either the
distinguished line `rmax` or has a strictly smaller `_seq`, and lines
within each file appear in strictly increasing `_seq` order, then the
merged index holds an entry carrying `rmax` for `k`. -/
theorem createDbState_get?_max (opts : JsDbOptions) (dir : List BlockFile)
    (k : String) (rmax : Rec)
    (hord : ∀ b ∈ dir, b.lines.Pairwise (fun a b => a._seq < b._seq))
    (hmem : rmax ∈ linesFor dir k)
    (hmax : ∀ r ∈ linesFor dir k, r = rmax ∨ r._seq < rmax._seq) :
    ∃ e, (createDbState opts dir).idMap.get? k = some e ∧
      e.record = rmax ∧ e._oid = rmax._oid ∧ e._seq = rmax._seq ∧
      e.id = rmax.id := by
  -- every candidate is either a copy of rmax or strictly older
  have cands_mem : ∀ e ∈ recoveryCands dir k,
      (e.record = rmax ∧ e._oid = rmax._oid ∧ e._seq = rmax._seq ∧ e.id = rmax.id) ∨
        e._seq < rmax._seq := by
    intro e he
    rcases mem_recoveryCands.mp he with ⟨b, hb, r, hr, rfl⟩
    have hrf : r ∈ b.lines.filter (fun r => r.id = k) := lastOf_mem hr
    rcases List.mem_filter.mp hrf with ⟨hrl, hrid⟩
    have hrlines : r ∈ linesFor dir k :=
      mem_linesFor.mpr ⟨b, hb, hrl, by simpa using hrid⟩
    rcases hmax r hrlines with h | h
    · left
      subst h
      exact ⟨rfl, rfl, rfl, rfl⟩
    · right
      exact h
  -- the file containing rmax contributes a candidate carrying rmax
  have cands_good : ∃ e ∈ recoveryCands dir k,
      e.record = rmax ∧ e._oid = rmax._oid ∧ e._seq = rmax._seq ∧ e.id = rmax.id := by
    rcases mem_linesFor.mp hmem with ⟨b, hb, hrl, hrid⟩
    have hrf : rmax ∈ b.lines.filter (fun r => r.id = k) :=
      List.mem_filter.mpr ⟨hrl, by simpa using hrid⟩
    have hpf : (b.lines.filter (fun r => r.id = k)).Pairwise
        (fun a b => a._seq < b._seq) :=
      List.Pairwise.filter _ (hord b hb)
    cases hfl : b.lines.filter (fun r => r.id = k) with
    | nil => rw [hfl] at hrf; simp at hrf
    | cons x xs =>
      obtain ⟨rlast, hrlast⟩ := lastOf_isSome x xs
      rw [hfl] at hrf hpf
      have hrel := lastOf_rel hpf hrf hrlast
      have hlastmem : rlast ∈ x :: xs := lastOf_mem hrlast
      have hlast_lines : rlast ∈ linesFor dir k := by
        rw [← hfl] at hlastmem
        rcases List.mem_filter.mp hlastmem with ⟨hl1, hl2⟩
        exact mem_linesFor.mpr ⟨b, hb, hl1, by simpa using hl2⟩
      have hre : rlast = rmax := by
        rcases hrel with h | h
        · exact h.symm
        · rcases hmax rlast hlast_lines with h2 | h2
          · exact h2
          · exact absurd h (not_lt_of_gt h2)
      refine ⟨mkEntry b.bid rmax, ?_, rfl, rfl, rfl, rfl⟩
      apply mem_recoveryCands.mpr
      exact ⟨b, hb, rmax, by rw [hfl, hrlast, hre], rfl⟩
  -- the maximal _seq over the candidates is rmax's
  obtain ⟨egood, hegood, hgr, hgo, hgs, hgi⟩ := cands_good
  have hmaxseq : maxSeqL (recoveryCands dir k) = rmax._seq := by
    apply le_antisymm
    · apply maxSeqL_le
      intro x hx
      rcases cands_mem x hx with ⟨-, -, hs, -⟩ | hs
      · exact le_of_eq hs
      · exact le_of_lt hs
    · rw [← hgs]
      exact le_maxSeqL hegood
  -- the winner is the last candidate attaining it, and any such is good
  rw [createDbState_get?_winner]
  unfold mergeWinnerSpec
  have hgf : egood ∈ (recoveryCands dir k).filter
      (fun e => e._seq = maxSeqL (recoveryCands dir k)) := by
    apply List.mem_filter.mpr
    refine ⟨hegood, ?_⟩
    rw [hmaxseq]
    simpa using hgs
  cases hfl : (recoveryCands dir k).filter
      (fun e => e._seq = maxSeqL (recoveryCands dir k)) with
  | nil => rw [hfl] at hgf; simp at hgf
  | cons x xs =>
    obtain ⟨ewin, hewin⟩ := lastOf_isSome x xs
    rw [hewin]
    have hwin_mem : ewin ∈ (recoveryCands dir k).filter
        (fun e => e._seq = maxSeqL (recoveryCands dir k)) := by
      rw [hfl]
      exact lastOf_mem hewin
    rcases List.mem_filter.mp hwin_mem with ⟨hwc, hws⟩
    have hws' : ewin._seq = rmax._seq := by
      rw [← hmaxseq]
      simpa using hws
    rcases cands_mem ewin hwc with ⟨h1, h2, h3, h4⟩ | hlt
    · exact ⟨ewin, rfl, h1, h2, h3, h4⟩
    · exact absurd hws' (ne_of_lt hlt)

/-! ## Evaluation lemmas for the read operations -/

theorem hasItem_some {s : DbState} {id : String} {e : MapEntry}
    (hk : id ≠ "") (hop : s.opened = true) (hget : s.idMap.get? id = some e) :
    hasItem s id = .ok (if e._oid = 2 then false else true) := by
  unfold hasItem
  rw [if_neg hk, if_neg (not_not_intro hop), hget]
  show (if e._oid = 2 then (pure false : Except String Bool) else pure true) = _
  by_cases h2 : e._oid = 2
  · rw [if_pos h2, if_pos h2]; rfl
  · rw [if_neg h2, if_neg h2]; rfl

theorem hasItem_none {s : DbState} {id : String}
    (hk : id ≠ "") (hop : s.opened = true) (hget : s.idMap.get? id = none) :
    hasItem s id = .ok false := by
  unfold hasItem
  rw [if_neg hk, if_neg (not_not_intro hop), hget]
  rfl

theorem getItem_some {s : DbState} {id : String} {e : MapEntry}
    (hk : id ≠ "") (hop : s.opened = true) (hget : s.idMap.get? id = some e)
    (hid : e.record.id = id) :
    getItem s id = .ok (if e._oid = 2 then none else some e.record) := by
  unfold getItem
  rw [if_neg hk, if_neg (not_not_intro hop), hget]
  show (if e._oid = 2 then (pure none : Except String (Option Rec))
    else if e.record.id = "" then throw "INTERNAL: id missing in value"
    else if e.record.id ≠ id then throw "INTERNAL: id mismatch"
    else pure (some e.record)) = _
  by_cases h2 : e._oid = 2
  · rw [if_pos h2, if_pos h2]; rfl
  · rw [if_neg h2, if_neg h2, if_neg (by rw [hid]; exact hk),
      if_neg (by rw [hid]; simp)]
    rfl

theorem getItem_none {s : DbState} {id : String}
    (hk : id ≠ "") (hop : s.opened = true) (hget : s.idMap.get? id = none) :
    getItem s id = .ok none := by
  unfold getItem
  rw [if_neg hk, if_neg (not_not_intro hop), hget]
  rfl

/-! ## Concrete fixtures used by counterexamples and witnesses -/

/-- The default options (`createOptions` applied to just a `dirPath`). -/
def opts1 : JsDbOptions :=
  { dirPath := "db", maxBlockSize := 1024 * 1024 * 8, dataSyncDelay := 1000,
    staleDataThreshold := 1 / 10, compactDelay := 1000 * 60 * 60 * 24,
    cachedFields := [] }

/-- Two set-lines for the same id in one file, the *earlier* line having
the *larger* `_seq`. -/
def rA : Rec := { id := "k", _oid := 1, _rid := 1, _seq := 5, payload := "" }

def rB : Rec := { id := "k", _oid := 1, _rid := 1, _seq := 3, payload := ",\"v\":2" }

def dir1 : List BlockFile := [{ bid := "b1.block", lines := [rA, rB] }]

/-- A set followed by its tombstone, in one file. -/
def rSet : Rec := { id := "k", _oid := 1, _rid := 1, _seq := 1, payload := "" }

def rTomb : Rec := { id := "k", _oid := 2, _rid := 1, _seq := 2, payload := "" }

def dir3 : List BlockFile := [{ bid := "b1.block", lines := [rSet, rTomb] }]

/-- A single-line directory satisfying every hypothesis of the amended
recovery claim. -/
def rW : Rec := { id := "k", _oid := 1, _rid := 1, _seq := 1, payload := "" }

def dirW : List BlockFile := [{ bid := "b1.block", lines := [rW] }]

/-! ## Claim C1 -/

/-- "The maximum-`_seq` line for k": a line for `k` whose `_seq` strictly
exceeds that of every other line for `k`. -/
def isMaxSeqLine (dir : List BlockFile) (k : String) (r : Rec) : Prop :=
  r ∈ linesFor dir k ∧ ∀ r' ∈ linesFor dir k, r' ≠ r → r'._seq < r._seq

/-- Claim C1 as stated: after recovery on any directory whose block
files all parse, the engine reads back the maximum-`_seq` line of every
id (value if its `_oid ≠ 2`, absence if it is a tombstone). -/
def claimC1 : Prop :=
  ∀ (opts : JsDbOptions) (dir : List BlockFile) (k : String) (rmax : Rec),
    isMaxSeqLine dir k rmax →
    (rmax._oid ≠ 2 → hasItem (createDbState opts dir) k = .ok true ∧
      getItem (createDbState opts dir) k = .ok (some rmax)) ∧
    (rmax._oid = 2 → hasItem (createDbState opts dir) k = .ok false ∧
      getItem (createDbState opts dir) k = .ok none)

/-- C1 fails as stated: within a single file `loadBlock` keeps the *last*
line for an id, not the maximum-`_seq` line.  In `dir1` the line with
`_seq = 5` precedes a line with `_seq = 3` for the same id, and recovery
returns the `_seq = 3` value. -/
theorem claim_C1_counterexample : ¬ claimC1 := by
  intro h
  have hmax : isMaxSeqLine dir1 "k" rA := by
    constructor
    · decide
    · decide
  have hres := (h opts1 dir1 "k" rA hmax).1 (by decide)
  have hact : getItem (createDbState opts1 dir1) "k" = .ok (some rB) := by
    have hget : (createDbState opts1 dir1).idMap.get? "k" = some (mkEntry "b1.block" rB) := by
      rw [createDbState_idMap]
      decide
    rw [getItem_some (by decide) (createDbState_opened opts1 dir1) hget (by decide)]
    rfl
  rw [hres.2] at hact
  have : rA = rB := by
    injection hact with hact
    injection hact
  exact absurd this (by decide)

/-- C1 amended: additionally assume (as holds for every engine-produced
block file) that lines within each file appear in strictly increasing
`_seq` order, that the maximal line dominates every other line for the
id either by being equal to it or by a strictly greater `_seq`, and that
the id is non-empty.  Then recovery reads back the maximal line. -/
theorem claim_C1_amended (opts : JsDbOptions) (dir : List BlockFile)
    (k : String) (rmax : Rec)
    (hk : k ≠ "")
    (hord : ∀ b ∈ dir, b.lines.Pairwise (fun a b => a._seq < b._seq))
    (hmem : rmax ∈ linesFor dir k)
    (hmax : ∀ r ∈ linesFor dir k, r = rmax ∨ r._seq < rmax._seq) :
    (rmax._oid ≠ 2 → hasItem (createDbState opts dir) k = .ok true ∧
      getItem (createDbState opts dir) k = .ok (some rmax)) ∧
    (rmax._oid = 2 → hasItem (createDbState opts dir) k = .ok false ∧
      getItem (createDbState opts dir) k = .ok none) := by
  obtain ⟨e, hget, her, heo, hes, hei⟩ :=
    createDbState_get?_max opts dir k rmax hord hmem hmax
  have hkid : rmax.id = k := by
    rcases mem_linesFor.mp hmem with ⟨b, hb, hl, hid⟩
    exact hid
  have hop := createDbState_opened opts dir
  have hrid : e.record.id = k := by rw [her, hkid]
  constructor
  · intro hoid
    have h2 : ¬ e._oid = 2 := by rw [heo]; exact hoid
    constructor
    · rw [hasItem_some hk hop hget, if_neg h2]
    · rw [getItem_some hk hop hget hrid, if_neg h2, her]
  · intro hoid
    have h2 : e._oid = 2 := by rw [heo]; exact hoid
    constructor
    · rw [hasItem_some hk hop hget, if_pos h2]
    · rw [getItem_some hk hop hget hrid, if_pos h2]

theorem claim_C1_amended_witness :
    (rW._oid ≠ 2 → hasItem (createDbState opts1 dirW) "k" = .ok true ∧
      getItem (createDbState opts1 dirW) "k" = .ok (some rW)) ∧
    (rW._oid = 2 → hasItem (createDbState opts1 dirW) "k" = .ok false ∧
      getItem (createDbState opts1 dirW) "k" = .ok none) :=
  claim_C1_amended opts1 dirW "k" rW (by decide) (by decide) (by decide) (by decide)

/-! ## Claim C2 -/

/-- Claim C2: recovery's merge keeps, for every id, the candidate with
the strictly higher `_seq`, and on a tie the later-merged candidate
replaces the earlier one — i.e. the result is the last candidate (in
merge order) attaining the maximal `_seq`, which is exactly
`mergeWinnerSpec`.  Being a function of the ordered candidate list, the
result is deterministic for a given order of block maps. -/
theorem claim_C2 (maps : List (JsMap String MapEntry)) (k : String)
    (h : ∀ m ∈ maps, m.NodupKeys) :
    (mergeBlockMaps JsMap.empty maps).get? k =
      mergeWinnerSpec (maps.filterMap (fun m => m.get? k)) :=
  mergeBlockMaps_winner maps k h

def mergeWitnessA : JsMap String MapEntry := ⟨[("k", mkEntry "a.block" rB)]⟩

def mergeWitnessB : JsMap String MapEntry := ⟨[("k", mkEntry "b.block" rA)]⟩

theorem claim_C2_witness :
    (mergeBlockMaps JsMap.empty [mergeWitnessA, mergeWitnessB]).get? "k" =
      mergeWinnerSpec ([mergeWitnessA, mergeWitnessB].filterMap
        (fun m => m.get? "k")) :=
  claim_C2 [mergeWitnessA, mergeWitnessB] "k" (by decide)

/-! ## Allocation and bookkeeping lemmas -/

/-- `getFreeBlock` touches only `lastUsedBid`, `blocks` and `gen`; the
registry either stays as-is or gains one fresh empty block at the end. -/
theorem getFreeBlock_proj (s : DbState) :
    (getFreeBlock s).2.idMap = s.idMap ∧ (getFreeBlock s).2.ridMap = s.ridMap ∧
    (getFreeBlock s).2.seqNo = s.seqNo ∧ (getFreeBlock s).2.ridNo = s.ridNo ∧
    (getFreeBlock s).2.opened = s.opened ∧ (getFreeBlock s).2.opts = s.opts ∧
    ((getFreeBlock s).2.blocks = s.blocks ∨
      (getFreeBlock s).2.blocks = s.blocks ++
        [{ bid := (getFreeBlock s).1, size := 0, staleBytes := 0, locked := false }]) := by
  unfold getFreeBlock
  dsimp only
  split
  · split
    · exact ⟨rfl, rfl, rfl, rfl, rfl, rfl, Or.inr rfl⟩
    · exact ⟨rfl, rfl, rfl, rfl, rfl, rfl, Or.inl rfl⟩
  · exact ⟨rfl, rfl, rfl, rfl, rfl, rfl, Or.inr rfl⟩

theorem findBlock_cons (b : BlockInfo) (bs : List BlockInfo) (x : String) :
    findBlock (b :: bs) x = if b.bid = x then some b else findBlock bs x := by
  unfold findBlock
  by_cases h : b.bid = x
  · rw [if_pos h, List.find?_cons_of_pos _ (by simpa using h)]
  · rw [if_neg h, List.find?_cons_of_neg _ (by simpa using h)]

theorem findBlock_append_left {bs : List BlockInfo} (bs' : List BlockInfo)
    {x : String} {b : BlockInfo} (h : findBlock bs x = some b) :
    findBlock (bs ++ bs') x = some b := by
  induction bs with
  | nil => rw [findBlock] at h; simp at h
  | cons c bs ih =>
    rw [findBlock_cons] at h
    rw [List.cons_append, findBlock_cons]
    by_cases hc : c.bid = x
    · rw [if_pos hc] at h ⊢; exact h
    · rw [if_neg hc] at h ⊢; exact ih h

/-- Updating the first block named `x` (without renaming it) is
invisible to lookups of other names and maps lookups of `x`. -/
theorem findBlock_updateFirst (bs : List BlockInfo) (x y : String)
    (f : BlockInfo → BlockInfo) (hf : ∀ b, (f b).bid = b.bid) :
    findBlock (updateFirst (fun b => decide (b.bid = x)) f bs) y =
      if y = x then (findBlock bs x).map f else findBlock bs y := by
  induction bs with
  | nil =>
    unfold updateFirst findBlock
    by_cases h : y = x <;> simp [h]
  | cons b bs ih =>
    unfold updateFirst
    by_cases hb : b.bid = x
    · by_cases hy : y = x
      · subst hy
        simp [findBlock_cons, hf, hb]
      · have hby : ¬ b.bid = y := fun hq => hy (hq ▸ hb)
        simp [findBlock_cons, hf, hb, hy, hby, show ¬ x = y from fun h => hy h.symm]
    · by_cases hy : y = x
      · subst hy
        simp [findBlock_cons, hb, ih]
      · simp [findBlock_cons, hb, hy, ih]

theorem updateStaleBytes_none (blocks : List BlockInfo) (newE : MapEntry) :
    updateStaleBytes blocks newE none =
      .ok (updateFirst (fun b => decide (b.bid = newE.bid))
        (fun b => { b with size := b.size + recLen newE.record }) blocks) := rfl

theorem updateStaleBytes_some {blocks : List BlockInfo} {old : MapEntry}
    {b : BlockInfo} (newE : MapEntry) (hb : findBlock blocks old.bid = some b) :
    updateStaleBytes blocks newE (some old) =
      .ok (updateFirst (fun bl => decide (bl.bid = newE.bid))
        (fun bl => { bl with size := bl.size + recLen newE.record })
        (updateFirst (fun bl => decide (bl.bid = old.bid))
          (fun bl => { bl with staleBytes := bl.staleBytes + (recLen old.record : Int) })
          blocks)) := by
  unfold updateStaleBytes
  dsimp only
  rw [hb]

/-! ## Unfolding lemmas for the write operations -/

/-- `deleteItem` on an id that is absent from the id-map: success, no
write, state unchanged. -/
theorem deleteItem_absent {s : DbState} {id : String}
    (hk : id ≠ "") (hop : s.opened = true) (hget : s.idMap.get? id = none) :
    deleteItem s id = .ok (s, none) := by
  unfold deleteItem
  rw [if_neg hk, if_neg (not_not_intro hop), hget]

/-- `deleteItem` on a present id, written as the explicit pipeline. -/
theorem deleteItem_present {s : DbState} {id : String} {e : MapEntry}
    (hk : id ≠ "") (hop : s.opened = true) (hget : s.idMap.get? id = some e) :
    deleteItem s id =
      (let s1 : DbState :=
        { s with idMap := s.idMap.del id, ridMap := s.ridMap.del e._rid }
       let alloc := getFreeBlock s1
       let value : Rec :=
        { id := e.id, _oid := 2, _rid := e._rid, _seq := alloc.2.seqNo + 1,
          payload := "" }
       let s3 : DbState := { alloc.2 with seqNo := alloc.2.seqNo + 1 }
       let tombEntry : MapEntry :=
        { _oid := value._oid, _rid := value._rid, _seq := value._seq,
          id := value.id, bid := alloc.1, record := value }
       match updateStaleBytes s3.blocks tombEntry (some e) with
       | .error err => .error err
       | .ok blocks => .ok ({ s3 with blocks := blocks }, some (alloc.1, value))) := by
  unfold deleteItem
  rw [if_neg hk, if_neg (not_not_intro hop), hget]

/-- `setItem` on a valid reference, written as the explicit pipeline. -/
theorem setItem_eq {s : DbState} {id : String} {heap : Heap} {v : Ref} {r0 : Rec}
    (hk : id ≠ "") (hop : s.opened = true) (hh : heap.get? v = some r0) :
    setItem s id heap v =
      (let existing := s.idMap.get? id
       let seqNo := s.seqNo + 1
       let rid := match existing with | none => s.ridNo + 1 | some e => e._rid
       let ridNo := match existing with | none => s.ridNo + 1 | some _ => s.ridNo
       let v1 : Rec := { r0 with id := id, _seq := seqNo, _rid := rid, _oid := 1 }
       let heap2 := heap.set v v1
       let state1 : DbState := { s with seqNo := seqNo, ridNo := ridNo }
       let alloc := getFreeBlock state1
       let entry : MapEntry :=
        { _oid := v1._oid, _rid := v1._rid, _seq := v1._seq, id := v1.id,
          bid := alloc.1, record := v1 }
       let state2 : DbState :=
        { alloc.2 with
          idMap := alloc.2.idMap.set v1.id entry
          ridMap := alloc.2.ridMap.set v1._rid entry }
       match updateStaleBytes state2.blocks entry existing with
       | .error err => .error err
       | .ok blocks =>
         .ok { state := { state2 with blocks := blocks }, heap := heap2,
               ret := v, written := (alloc.1, v1) }) := by
  unfold setItem
  rw [if_neg hk, if_neg (not_not_intro hop), hh]

/-! ## Claim C3 -/

/-- The engine states reachable through the public operations: a
recovered state, and any state obtained from a reachable one by a
successful `setItem` or `deleteItem`. -/
inductive Reachable : DbState → Prop where
  | recovered (opts : JsDbOptions) (dir : List BlockFile) :
      Reachable (createDbState opts dir)
  | set (s : DbState) (id : String) (heap : Heap) (v : Ref) (res : SetResult) :
      Reachable s → setItem s id heap v = .ok res → Reachable res.state
  | del (s : DbState) (id : String) (res : DbState × Option (String × Rec)) :
      Reachable s → deleteItem s id = .ok res → Reachable res.1

/-- Claim C3 as stated: no reachable id-map retains an entry with
`_oid = 2`; in particular recovery purges tombstone survivors. -/
def claimC3 : Prop :=
  ∀ s : DbState, Reachable s → ∀ (k : String) (e : MapEntry),
    s.idMap.get? k = some e → e._oid ≠ 2

/-- C3 fails as stated: recovery never deletes tombstone survivors from
the merged map.  Opening a directory whose latest line for `k` is a
tombstone leaves the tombstone entry (with `_oid = 2`) in the id-map. -/
theorem claim_C3_counterexample : ¬ claimC3 := by
  intro h
  have hget : (createDbState opts1 dir3).idMap.get? "k" =
      some (mkEntry "b1.block" rTomb) := by
    rw [createDbState_idMap]
    decide
  exact h (createDbState opts1 dir3) (Reachable.recovered opts1 dir3)
    "k" (mkEntry "b1.block" rTomb) hget (by decide)

/-- C3 amended: tombstone entries *can* survive recovery in the id-map,
but (a) `hasItem`/`getItem` treat them as absent, (b) `deleteItem` only
ever removes id-map entries, and (c) every entry `setItem` installs has
`_oid = 1` — so reads never observe a tombstone and mutations never
introduce one. -/
theorem claim_C3_amended :
    (∀ (opts : JsDbOptions) (dir : List BlockFile) (k : String) (e : MapEntry),
      (createDbState opts dir).idMap.get? k = some e → e._oid = 2 →
      hasItem (createDbState opts dir) k ≠ .ok true ∧
      ∀ v : Rec, getItem (createDbState opts dir) k ≠ .ok (some v)) ∧
    (∀ (s : DbState) (id : String) (res : DbState × Option (String × Rec)),
      deleteItem s id = .ok res →
      ∀ kv : String × MapEntry, kv ∈ res.1.idMap.entries → kv ∈ s.idMap.entries) ∧
    (∀ (s : DbState) (id : String) (heap : Heap) (v : Ref) (res : SetResult),
      setItem s id heap v = .ok res →
      ∀ kv : String × MapEntry, kv ∈ res.state.idMap.entries →
        kv ∈ s.idMap.entries ∨ kv.2._oid = 1) := by
  refine ⟨?_, ?_, ?_⟩
  · intro opts dir k e hget h2
    by_cases hk : k = ""
    · constructor
      · unfold hasItem
        rw [if_pos hk]
        exact fun h => Except.noConfusion h
      · intro v
        unfold getItem
        rw [if_pos hk]
        exact fun h => Except.noConfusion h
    · have hop := createDbState_opened opts dir
      constructor
      · rw [hasItem_some hk hop hget, if_pos h2]
        intro h
        injection h with h
        exact Bool.noConfusion h
      · intro v
        unfold getItem
        rw [if_neg hk, if_neg (not_not_intro hop), hget]
        show (if e._oid = 2 then (pure none : Except String (Option Rec))
          else _) ≠ _
        rw [if_pos h2]
        intro h
        injection h with h
        exact Option.noConfusion h
  · intro s id res h kv hkv
    by_cases hk : id = ""
    · unfold deleteItem at h
      rw [if_pos hk] at h
      exact Except.noConfusion h
    · cases hopv : s.opened with
      | false =>
        unfold deleteItem at h
        rw [if_neg hk, if_pos (by simp [hopv])] at h
        exact Except.noConfusion h
      | true =>
        cases hget : s.idMap.get? id with
        | none =>
          rw [deleteItem_absent hk hopv hget] at h
          injection h with h
          rw [← h] at hkv
          exact hkv
        | some e =>
          rw [deleteItem_present hk hopv hget] at h
          dsimp only at h
          split at h
          · exact Except.noConfusion h
          · injection h with h
            rw [← h] at hkv
            dsimp only at hkv
            rw [(getFreeBlock_proj _).1] at hkv
            exact JsMap.mem_entries_del hkv
  · intro s id heap v res h kv hkv
    by_cases hk : id = ""
    · unfold setItem at h
      rw [if_pos hk] at h
      exact Except.noConfusion h
    · cases hopv : s.opened with
      | false =>
        unfold setItem at h
        rw [if_neg hk, if_pos (by simp [hopv])] at h
        exact Except.noConfusion h
      | true =>
        cases hh : heap.get? v with
        | none =>
          unfold setItem at h
          rw [if_neg hk, if_neg (not_not_intro hopv), hh] at h
          exact Except.noConfusion h
        | some r0 =>
          rw [setItem_eq hk hopv hh] at h
          dsimp only at h
          split at h
          · exact Except.noConfusion h
          · injection h with h
            rw [← h] at hkv
            dsimp only at hkv
            rw [(getFreeBlock_proj _).1] at hkv
            rcases JsMap.mem_entries_set hkv with hm | hm
            · exact Or.inl hm
            · right
              rw [hm]

theorem claim_C3_amended_witness :
    hasItem (createDbState opts1 dir3) "k" ≠ .ok true ∧
    ∀ v : Rec, getItem (createDbState opts1 dir3) "k" ≠ .ok (some v) :=
  claim_C3_amended.1 opts1 dir3 "k" (mkEntry "b1.block" rTomb)
    (by rw [createDbState_idMap]; decide) (by decide)

/-! ## Claim C7 -/

/-- Claim C7 as stated: whenever `has(id)` is false on an open engine,
`delete(id)` succeeds without writing and leaves the state unchanged. -/
def claimC7 : Prop :=
  ∀ (s : DbState) (id : String),
    hasItem s id = .ok false → deleteItem s id = .ok (s, none)

/-- C7 fails as stated: after recovering a directory whose latest line
for `k` is a tombstone, `has(k)` is false, yet the tombstone entry is
still in the id-map, so `delete(k)` evicts it, burns a fresh `_seq` and
appends a second tombstone line. -/
theorem claim_C7_counterexample : ¬ claimC7 := by
  intro h
  have hget : (createDbState opts1 dir3).idMap.get? "k" =
      some (mkEntry "b1.block" rTomb) := by
    rw [createDbState_idMap]
    decide
  have hop := createDbState_opened opts1 dir3
  have hhas : hasItem (createDbState opts1 dir3) "k" = .ok false := by
    rw [hasItem_some (by decide) hop hget]
    rfl
  have hd := h (createDbState opts1 dir3) "k" hhas
  rw [deleteItem_present (by decide) hop hget] at hd
  dsimp only at hd
  split at hd
  · exact Except.noConfusion hd
  · injection hd with hd
    have : (some ((getFreeBlock _).1,
        ({ id := (mkEntry "b1.block" rTomb).id, _oid := 2,
           _rid := (mkEntry "b1.block" rTomb)._rid,
           _seq := (getFreeBlock _).2.seqNo + 1, payload := "" } : Rec)) :
        Option (String × Rec)) = none := congrArg Prod.snd hd
    exact Option.noConfusion this

/-- C7 amended: the guard in `deleteItem` is the id-map lookup, not
`has` — for every id *absent from the id-map* (on an open engine, with a
valid id), `delete` returns success without writing anything, leaving
the state unchanged.  (An id can have `has(id) = false` while a
tombstone entry for it sits in the map; deleting such an id does
write.) -/
theorem claim_C7_amended (s : DbState) (id : String)
    (hk : id ≠ "") (hop : s.opened = true) (hget : s.idMap.get? id = none) :
    deleteItem s id = .ok (s, none) :=
  deleteItem_absent hk hop hget

theorem claim_C7_amended_witness :
    deleteItem (createDbState opts1 dirW) "absent" =
      .ok (createDbState opts1 dirW, none) :=
  claim_C7_amended (createDbState opts1 dirW) "absent" (by decide)
    (createDbState_opened opts1 dirW)
    (by rw [createDbState_idMap]; decide)

/-! ## Claim C6 -/

/-- `staleBytes` of the first block with the given name (0 if absent). -/
def staleOf (blocks : List BlockInfo) (bid : String) : Int :=
  ((findBlock blocks bid).map (fun b => b.staleBytes)).getD 0

/-- `size` of the first block with the given name (0 if absent). -/
def sizeOfBlock (blocks : List BlockInfo) (bid : String) : Nat :=
  ((findBlock blocks bid).map (fun b => b.size)).getD 0

theorem scanBlocks_mem (blocks : List BlockInfo) (maxSize : Int) :
    ∀ (n i : Nat) (ib : Nat × String), blocks.length - i ≤ n →
      scanBlocks blocks maxSize i = some ib → ∃ p ∈ blocks, p.bid = ib.2 := by
  intro n
  induction n with
  | zero =>
    intro i ib hn h
    unfold scanBlocks at h
    rw [dif_neg (by omega)] at h
    exact Option.noConfusion h
  | succ n ih =>
    intro i ib hn h
    unfold scanBlocks at h
    by_cases hi : i < blocks.length
    · rw [dif_pos hi] at h
      dsimp only at h
      split at h
      · injection h with h
        exact ⟨blocks.get ⟨i, hi⟩, List.get_mem blocks i hi, by rw [← h]⟩
      · exact ih (i + 1) ib (by omega) h
    · rw [dif_neg hi] at h
      exact Option.noConfusion h

theorem selectBlock_mem {blocks : List BlockInfo} {maxSize : Int}
    {startIdx : Nat} {ib : Nat × String}
    (h : selectBlock blocks maxSize startIdx = some ib) :
    ∃ p ∈ blocks, p.bid = ib.2 := by
  unfold selectBlock at h
  cases hg : blocks[startIdx]? with
  | some p =>
    rw [hg] at h
    dsimp only at h
    split at h
    · injection h with h
      exact ⟨p, List.getElem?_mem hg, by rw [← h]⟩
    · exact scanBlocks_mem blocks maxSize (blocks.length - (startIdx + 1))
        (startIdx + 1) ib (le_refl _) h
  | none =>
    rw [hg] at h
    dsimp only at h
    exact scanBlocks_mem blocks maxSize (blocks.length - (startIdx + 1))
      (startIdx + 1) ib (le_refl _) h

/-- The registry after `getFreeBlock`: unchanged with the chosen name
present, or extended by one fresh empty block bearing the chosen name. -/
theorem getFreeBlock_blocks_spec (s : DbState) :
    ((getFreeBlock s).2.blocks = s.blocks ∧
      ∃ p ∈ s.blocks, p.bid = (getFreeBlock s).1) ∨
    (getFreeBlock s).2.blocks = s.blocks ++
      [{ bid := (getFreeBlock s).1, size := 0, staleBytes := 0, locked := false }] := by
  unfold getFreeBlock
  dsimp only
  split
  next ib heq =>
    split
    · exact Or.inr rfl
    · exact Or.inl ⟨rfl, selectBlock_mem heq⟩
  next => exact Or.inr rfl

theorem findBlock_isSome_of_mem {bs : List BlockInfo} {x : String}
    (h : ∃ p ∈ bs, p.bid = x) : ∃ c, findBlock bs x = some c := by
  induction bs with
  | nil => rcases h with ⟨p, hp, -⟩; simp at hp
  | cons b bs ih =>
    rw [findBlock_cons]
    by_cases hb : b.bid = x
    · exact ⟨b, if_pos hb⟩
    · rcases h with ⟨p, hp, hpx⟩
      rcases List.mem_cons.mp hp with rfl | hp
      · exact absurd hpx hb
      · rw [if_neg hb]
        exact ih ⟨p, hp, hpx⟩

theorem findBlock_append_right {bs : List BlockInfo} (bs' : List BlockInfo)
    {x : String} (h : findBlock bs x = none) :
    findBlock (bs ++ bs') x = findBlock bs' x := by
  induction bs with
  | nil => rfl
  | cons b bs ih =>
    rw [findBlock_cons] at h
    by_cases hb : b.bid = x
    · rw [if_pos hb] at h; exact Option.noConfusion h
    · rw [if_neg hb] at h
      rw [List.cons_append, findBlock_cons, if_neg hb]
      exact ih h

/-- After `getFreeBlock`, the chosen name resolves to some block, and
blocks present before keep resolving to the same block. -/
theorem getFreeBlock_findBlock (s : DbState) :
    (∃ c, findBlock (getFreeBlock s).2.blocks (getFreeBlock s).1 = some c) ∧
    (∀ x b, findBlock s.blocks x = some b →
      findBlock (getFreeBlock s).2.blocks x = some b) := by
  rcases getFreeBlock_blocks_spec s with ⟨hb, hmem⟩ | hb
  · rw [hb]
    exact ⟨findBlock_isSome_of_mem hmem, fun x b h => h⟩
  · rw [hb]
    constructor
    · cases hfs : findBlock s.blocks (getFreeBlock s).1 with
      | some c => exact ⟨c, findBlock_append_left _ hfs⟩
      | none =>
        rw [findBlock_append_right _ hfs, findBlock_cons]
        exact ⟨_, if_pos rfl⟩
    · exact fun x b h => findBlock_append_left _ h

/-- Appending a fresh empty block does not change the observable size or
stale count of any name. -/
theorem append_zero_block_obs (bs : List BlockInfo) (nb : BlockInfo)
    (hsz : nb.size = 0) (hst : nb.staleBytes = 0) (y : String) :
    sizeOfBlock (bs ++ [nb]) y = sizeOfBlock bs y ∧
    staleOf (bs ++ [nb]) y = staleOf bs y := by
  cases hf : findBlock bs y with
  | some c =>
    unfold sizeOfBlock staleOf
    rw [findBlock_append_left _ hf, hf]
    exact ⟨rfl, rfl⟩
  | none =>
    unfold sizeOfBlock staleOf
    rw [findBlock_append_right _ hf, hf, findBlock_cons]
    by_cases hy : nb.bid = y
    · rw [if_pos hy]
      constructor
      · show nb.size = 0
        exact hsz
      · show nb.staleBytes = 0
        exact hst
    · rw [if_neg hy]
      exact ⟨rfl, rfl⟩

theorem getFreeBlock_obs (s : DbState) (y : String) :
    sizeOfBlock (getFreeBlock s).2.blocks y = sizeOfBlock s.blocks y ∧
    staleOf (getFreeBlock s).2.blocks y = staleOf s.blocks y := by
  rcases getFreeBlock_blocks_spec s with ⟨hb, -⟩ | hb
  · rw [hb]
    exact ⟨rfl, rfl⟩
  · rw [hb]
    exact append_zero_block_obs s.blocks _ rfl rfl y

/-- Observable effect of `updateStaleBytes`' two in-place updates when
both the displaced entry's block and the destination block resolve:
the displaced block's staleBytes grows by the old record's length, the
destination's size by the new record's length, and (when they differ)
the destination's staleBytes is untouched. -/
theorem updated_blocks_obs (B2 : List BlockInfo) (old newE : MapEntry)
    {bOld c : BlockInfo}
    (hfbOld : findBlock B2 old.bid = some bOld)
    (hfbNew : findBlock B2 newE.bid = some c) :
    staleOf (updateFirst (fun bl => decide (bl.bid = newE.bid))
        (fun bl => { bl with size := bl.size + recLen newE.record })
        (updateFirst (fun bl => decide (bl.bid = old.bid))
          (fun bl => { bl with staleBytes := bl.staleBytes + (recLen old.record : Int) })
          B2)) old.bid = staleOf B2 old.bid + recLen old.record ∧
    sizeOfBlock (updateFirst (fun bl => decide (bl.bid = newE.bid))
        (fun bl => { bl with size := bl.size + recLen newE.record })
        (updateFirst (fun bl => decide (bl.bid = old.bid))
          (fun bl => { bl with staleBytes := bl.staleBytes + (recLen old.record : Int) })
          B2)) newE.bid = sizeOfBlock B2 newE.bid + recLen newE.record ∧
    (newE.bid ≠ old.bid →
      staleOf (updateFirst (fun bl => decide (bl.bid = newE.bid))
        (fun bl => { bl with size := bl.size + recLen newE.record })
        (updateFirst (fun bl => decide (bl.bid = old.bid))
          (fun bl => { bl with staleBytes := bl.staleBytes + (recLen old.record : Int) })
          B2)) newE.bid = staleOf B2 newE.bid) := by
  have hinner := fun y => findBlock_updateFirst B2 old.bid y
    (fun bl => { bl with staleBytes := bl.staleBytes + (recLen old.record : Int) })
    (fun b => rfl)
  have houter := fun y => findBlock_updateFirst
    (updateFirst (fun bl => decide (bl.bid = old.bid))
      (fun bl => { bl with staleBytes := bl.staleBytes + (recLen old.record : Int) })
      B2) newE.bid y
    (fun bl => { bl with size := bl.size + recLen newE.record })
    (fun b => rfl)
  by_cases hbb : old.bid = newE.bid
  · -- same block: both updates land on it
    refine ⟨?_, ?_, fun hne => absurd hbb.symm hne⟩
    · unfold staleOf
      rw [houter old.bid, if_pos hbb, hinner newE.bid, if_pos hbb.symm, hfbOld]
      rfl
    · unfold sizeOfBlock
      rw [houter newE.bid, if_pos rfl, hinner newE.bid, if_pos hbb.symm, ← hbb, hfbOld]
      rfl
  · refine ⟨?_, ?_, fun hne => ?_⟩
    · unfold staleOf
      rw [houter old.bid, if_neg hbb, hinner old.bid, if_pos rfl, hfbOld]
      rfl
    · unfold sizeOfBlock
      rw [houter newE.bid, if_pos rfl, hinner newE.bid,
        if_neg (fun h => hbb h.symm), hfbNew]
      rfl
    · unfold staleOf
      rw [houter newE.bid, if_pos rfl, hinner newE.bid,
        if_neg (fun h => hbb h.symm), hfbNew]
      rfl

/-- Claim C6 as stated: deleting a present key removes the entry from
both maps and charges *both* the displaced entry's bytes *and* the
tombstone line's own bytes to `staleBytes` of their respective blocks,
the tombstone's bytes being charged to the block it was written to. -/
def claimC6 : Prop :=
  ∀ (s : DbState) (id : String) (e : MapEntry) (s' : DbState) (bid : String)
    (tomb : Rec),
    s.idMap.get? id = some e →
    deleteItem s id = .ok (s', some (bid, tomb)) →
    s'.idMap.get? id = none ∧
    s'.ridMap.get? e._rid = none ∧
    (bid = e.bid →
      staleOf s'.blocks bid =
        staleOf s.blocks bid + recLen e.record + recLen tomb) ∧
    (bid ≠ e.bid →
      staleOf s'.blocks e.bid = staleOf s.blocks e.bid + recLen e.record ∧
      staleOf s'.blocks bid = staleOf s.blocks bid + recLen tomb)

/-- The tombstone `MapEntry` `deleteItem` builds for a displaced entry
(used to state intermediate facts about the pipeline). -/
def tombOf (e : MapEntry) (seq : Nat) (bid : String) : MapEntry :=
  { _oid := 2, _rid := e._rid, _seq := seq, id := e.id, bid := bid,
    record := { id := e.id, _oid := 2, _rid := e._rid, _seq := seq, payload := "" } }

/-- C6 amended: the displaced entry's bytes are charged to `staleBytes`
of its block, but the tombstone's own bytes are *not* charged to any
block's `staleBytes` — `updateStaleBytes` adds them to the destination
block's `size` instead (they only become stale via the full recompute at
the next recovery). -/
theorem claim_C6_amended (s : DbState) (id : String) (e : MapEntry)
    (bOld : BlockInfo)
    (hk : id ≠ "") (hop : s.opened = true) (hget : s.idMap.get? id = some e)
    (hfb : findBlock s.blocks e.bid = some bOld) :
    ∃ (s' : DbState) (bid : String) (tomb : Rec),
      deleteItem s id = .ok (s', some (bid, tomb)) ∧
      s'.idMap = s.idMap.del id ∧
      s'.ridMap = s.ridMap.del e._rid ∧
      s'.seqNo = s.seqNo + 1 ∧
      tomb = { id := e.id, _oid := 2, _rid := e._rid, _seq := s.seqNo + 1,
               payload := "" } ∧
      staleOf s'.blocks e.bid = staleOf s.blocks e.bid + recLen e.record ∧
      sizeOfBlock s'.blocks bid = sizeOfBlock s.blocks bid + recLen tomb ∧
      (bid ≠ e.bid → staleOf s'.blocks bid = staleOf s.blocks bid) := by
  have hproj := getFreeBlock_proj
    { s with idMap := s.idMap.del id, ridMap := s.ridMap.del e._rid }
  dsimp only at hproj
  obtain ⟨hidm, hrdm, hseq, -, -, -, -⟩ := hproj
  have hfind := getFreeBlock_findBlock
    { s with idMap := s.idMap.del id, ridMap := s.ridMap.del e._rid }
  dsimp only at hfind
  obtain ⟨⟨c, hc⟩, hpres⟩ := hfind
  have hobs := getFreeBlock_obs
    { s with idMap := s.idMap.del id, ridMap := s.ridMap.del e._rid }
  dsimp only at hobs
  rw [deleteItem_present hk hop hget]
  dsimp only
  generalize hA : getFreeBlock
    { s with idMap := s.idMap.del id, ridMap := s.ridMap.del e._rid } = A
    at hidm hrdm hseq hpres hobs hc ⊢
  obtain ⟨bid0, s2⟩ := A
  dsimp only at hidm hrdm hseq hpres hobs hc ⊢
  have hfb2 := hpres e.bid bOld hfb
  rw [updateStaleBytes_some _ hfb2]
  dsimp only
  refine ⟨_, _, _, rfl, ?_, ?_, ?_, ?_, ?_, ?_, ?_⟩
  · exact hidm
  · exact hrdm
  · rw [hseq]
  · rw [hseq]
  · exact ((updated_blocks_obs s2.blocks e (tombOf e (s2.seqNo + 1) bid0)
      hfb2 hc).1).trans (by rw [(hobs e.bid).2])
  · exact ((updated_blocks_obs s2.blocks e (tombOf e (s2.seqNo + 1) bid0)
      hfb2 hc).2.1).trans (by simp only [tombOf]; rw [(hobs bid0).1])
  · intro hne
    exact ((updated_blocks_obs s2.blocks e (tombOf e (s2.seqNo + 1) bid0)
      hfb2 hc).2.2 hne).trans (hobs bid0).2

/-- A one-key, one-block engine state used to evaluate `deleteItem`. -/
def r6 : Rec := { id := "k", _oid := 1, _rid := 1, _seq := 5, payload := "" }

def e6 : MapEntry := mkEntry "b1.block" r6

def b6 : BlockInfo := { bid := "b1.block", size := 100, staleBytes := 0, locked := false }

def s6 : DbState :=
  { idMap := ⟨[("k", e6)]⟩, ridMap := ⟨[(1, e6)]⟩, blocks := [b6],
    lastUsedBid := 0, seqNo := 5, ridNo := 1, opts := opts1, opened := true,
    gen := 0 }

def tomb6 : Rec := { id := "k", _oid := 2, _rid := 1, _seq := 6, payload := "" }

/-- The state `deleteItem s6 "k"` actually produces: the tombstone's 37
bytes go to the block's `size`, only the displaced record's 37 bytes go
to `staleBytes`. -/
def s6res : DbState :=
  { idMap := ⟨[]⟩, ridMap := ⟨[]⟩,
    blocks := [{ bid := "b1.block", size := 137, staleBytes := 37, locked := false }],
    lastUsedBid := 0, seqNo := 6, ridNo := 1, opts := opts1, opened := true,
    gen := 0 }

/-- C6 fails as stated: deleting the only key of `s6` leaves the block's
`staleBytes` at 37 (the displaced record only), not the 74 the claim
demands (displaced record + tombstone line). -/
theorem claim_C6_counterexample : ¬ claimC6 := by
  intro h
  have hdel : deleteItem s6 "k" = .ok (s6res, some ("b1.block", tomb6)) := by rfl
  have hstale := (h s6 "k" e6 s6res "b1.block" tomb6 (by rfl) hdel).2.2.1 rfl
  exact absurd hstale (by decide)

theorem claim_C6_amended_witness :
    ∃ (s' : DbState) (bid : String) (tomb : Rec),
      deleteItem s6 "k" = .ok (s', some (bid, tomb)) ∧
      s'.idMap = s6.idMap.del "k" ∧
      s'.ridMap = s6.ridMap.del e6._rid ∧
      s'.seqNo = s6.seqNo + 1 ∧
      tomb = { id := e6.id, _oid := 2, _rid := e6._rid, _seq := s6.seqNo + 1,
               payload := "" } ∧
      staleOf s'.blocks e6.bid = staleOf s6.blocks e6.bid + recLen e6.record ∧
      sizeOfBlock s'.blocks bid = sizeOfBlock s6.blocks bid + recLen tomb ∧
      (bid ≠ e6.bid → staleOf s'.blocks bid = staleOf s6.blocks bid) :=
  claim_C6_amended s6 "k" e6 b6 (by decide) rfl rfl (by decide)

/-! ## Claim C4 -/

/-- Claim C4 as stated: with `syncDelay = 0`, every append is a
synchronous write followed immediately by a file-data sync on the same
call path. -/
def claimC4 : Prop :=
  ∀ now : Nat, appendToFile 0 now = [IoEvent.write, IoEvent.datasync]

/-- C4 fails as stated: the `sync === 0` branch of `appendToFile` is a
bare `fs.writeSync` — no `fdatasync` is issued anywhere on that path. -/
theorem claim_C4_counterexample : ¬ claimC4 := by
  intro h
  exact absurd (h 0) (by decide)

/-- C4 amended: with `syncDelay = 0` every append is exactly one
synchronous OS write on the same call path, with *no* file-data sync. -/
theorem claim_C4_amended :
    ∀ now : Nat, appendToFile 0 now = [IoEvent.write] ∧
      writeCount (appendToFile 0 now) = 1 ∧
      syncCount (appendToFile 0 now) = 0 := by
  intro now
  exact ⟨rfl, rfl, rfl⟩

/-! ## Claim C5 -/

/-- Claim C5 as stated: with `syncDelay = n > 0`, syncs are throttled to
at most one per `n` milliseconds per block — two appends less than `n`
apart perform at most one file-data sync between them. -/
def claimC5 : Prop :=
  ∀ (sync t1 t2 : Nat), 0 < sync → t1 ≤ t2 → t2 - t1 < sync →
    syncCount (appendToFile sync t1) + syncCount (appendToFile sync t2) ≤ 1

/-- C5 fails on the code: `appendToFile` constructs a *fresh* throttled
closure (with `lastCall = 0`) on every call and invokes it once, so
`now - lastCall ≥ n` always holds and `fdatasyncSync` runs on *every*
append.  Two appends at the same instant `t = 2000` with `n = 1000`
perform two syncs. -/
theorem claim_C5_code_bug : ¬ claimC5 := by
  intro h
  exact absurd (h 1000 2000 2000 (by decide) (le_refl _) (by decide)) (by decide)

/-! ## Claim C9 -/

/-- Claim C9 as stated: any `staleDataThreshold` in `[0, 1]` is accepted
and honored in the resulting configuration. -/
def claimC9 : Prop :=
  ∀ (o : PartialOptions) (q : Rat) (opts : JsDbOptions),
    o.staleDataThreshold = some q → 0 ≤ q → q ≤ 1 →
    createOptions o = .ok opts → opts.staleDataThreshold = q

def o9 : PartialOptions :=
  { dirPath := some "db", maxBlockSize := none, dataSyncDelay := none,
    staleDataThreshold := some 0, compactDelay := none, cachedFields := none }

/-- C9 fails on the code: `if (options.staleDataThreshold)` is a JS
truthiness test, so the legal value `0` (documented to disable
compaction) is silently ignored and the default `0.1` is kept. -/
theorem claim_C9_code_bug :
    ¬ claimC9 ∧ createOptions o9 = .ok opts1 := by
  have heval : createOptions o9 = .ok opts1 := rfl
  refine ⟨?_, heval⟩
  intro h
  have h0 := h o9 0 opts1 rfl (le_refl 0) (by norm_num) heval
  have : opts1.staleDataThreshold = 1 / 10 := rfl
  rw [h0] at this
  exact absurd this.symm (by norm_num)

/-! ## Claim C8 -/

/-- Looking up a key in a filtered association list, when the keys are
distinct: the entry survives iff it passes the predicate. -/
theorem getAux_filter_nodup {α β : Type} [DecidableEq α]
    (p : α × β → Bool) (k : α) :
    ∀ l : List (α × β), (l.map Prod.fst).Nodup →
      JsMap.getAux (l.filter p) k =
        match JsMap.getAux l k with
        | some v => if p (k, v) then some v else none
        | none => none := by
  intro l
  induction l with
  | nil => intro _; rfl
  | cons kv l ih =>
    intro hnd
    simp only [List.map_cons, List.nodup_cons] at hnd
    rw [List.filter_cons, JsMap.getAux_cons]
    by_cases hk : kv.1 = k
    · have hgl : JsMap.getAux l k = none :=
        JsMap.getAux_eq_none_of_not_mem_keys (hk ▸ hnd.1)
      have hkv : (k, kv.2) = kv := Prod.ext hk.symm rfl
      rw [if_pos hk]
      by_cases hp : p kv = true
      · rw [if_pos hp, JsMap.getAux_cons, if_pos hk]
        dsimp only
        rw [hkv, if_pos hp]
      · rw [if_neg hp]
        have : JsMap.getAux (l.filter p) k = none := by
          apply JsMap.getAux_eq_none_of_not_mem_keys
          intro hmem
          rcases List.mem_map.mp hmem with ⟨kv', hkv', hfst⟩
          exact (hk ▸ hnd.1) (hfst ▸ List.mem_map_of_mem Prod.fst
            (List.mem_of_mem_filter hkv'))
        rw [this]
        dsimp only
        rw [hkv, if_neg hp]
    · rw [if_neg hk]
      by_cases hp : p kv = true
      · rw [if_pos hp, JsMap.getAux_cons, if_neg hk, ih hnd.2]
      · rw [if_neg hp, ih hnd.2]

/-- The copy loop of `compactPage`, per key: an entry is copied (with its
`bid` repointed at the new file) iff it survives the `_seq` filter and
lives on the page being compacted. -/
theorem compactFold_getAux (pid newName : String) (filterSeqNo : Nat) (k : String) :
    ∀ l : List (String × MapEntry), (l.map Prod.fst).Nodup →
    ∀ acc : JsMap String MapEntry × Nat,
      ((l.foldl
        (fun (acc : JsMap String MapEntry × Nat) kv =>
          if kv.2._seq < filterSeqNo then acc
          else if kv.2.bid = pid then
            (acc.1.set kv.1 { kv.2 with bid := newName },
              acc.2 + recLen kv.2.record)
          else acc)
        acc).1).get? k =
      match JsMap.getAux l k with
      | some e => if ¬ e._seq < filterSeqNo ∧ e.bid = pid
          then some { e with bid := newName } else acc.1.get? k
      | none => acc.1.get? k := by
  intro l
  induction l with
  | nil => intro _ acc; rfl
  | cons kv l ih =>
    intro hnd acc
    simp only [List.map_cons, List.nodup_cons] at hnd
    rw [List.foldl_cons, ih hnd.2, JsMap.getAux_cons]
    by_cases hk : kv.1 = k
    · have hgl : JsMap.getAux l k = none :=
        JsMap.getAux_eq_none_of_not_mem_keys (hk ▸ hnd.1)
      rw [hgl, if_pos hk]
      dsimp only
      by_cases h1 : kv.2._seq < filterSeqNo
      · rw [if_pos h1, if_neg (fun hc => hc.1 h1)]
      · by_cases h2 : kv.2.bid = pid
        · rw [if_neg h1, if_pos h2, if_pos (And.intro h1 h2)]
          dsimp only
          rw [← hk]
          exact JsMap.get?_set_self acc.1 kv.1 _
        · rw [if_neg h1, if_neg h2, if_neg (fun hc => h2 hc.2)]
    · rw [if_neg hk]
      have hstep : (if kv.2._seq < filterSeqNo then acc
          else if kv.2.bid = pid then
            (acc.1.set kv.1 { kv.2 with bid := newName },
              acc.2 + recLen kv.2.record)
          else acc).1.get? k = acc.1.get? k := by
        by_cases h1 : kv.2._seq < filterSeqNo
        · rw [if_pos h1]
        · by_cases h2 : kv.2.bid = pid
          · rw [if_neg h1, if_pos h2]
            exact JsMap.get?_set_ne acc.1 kv.1 k _ hk
          · rw [if_neg h1, if_neg h2]
      rw [hstep]

/-- The copy loop of `compactPage` keeps the copied map's keys distinct. -/
theorem compactFold_nodup (pid newName : String) (filterSeqNo : Nat) :
    ∀ (l : List (String × MapEntry)) (acc : JsMap String MapEntry × Nat),
      acc.1.NodupKeys →
      ((l.foldl
        (fun (acc : JsMap String MapEntry × Nat) kv =>
          if kv.2._seq < filterSeqNo then acc
          else if kv.2.bid = pid then
            (acc.1.set kv.1 { kv.2 with bid := newName },
              acc.2 + recLen kv.2.record)
          else acc)
        acc).1).NodupKeys := by
  intro l
  induction l with
  | nil => intro acc h; exact h
  | cons kv l ih =>
    intro acc h
    rw [List.foldl_cons]
    apply ih
    by_cases h1 : kv.2._seq < filterSeqNo
    · rw [if_pos h1]; exact h
    · by_cases h2 : kv.2.bid = pid
      · rw [if_neg h1, if_pos h2]
        exact JsMap.nodupKeys_set h kv.1 _
      · rw [if_neg h1, if_neg h2]; exact h

/-- The key-value view of an index entry: everything the spec calls
observable — id, `_oid`, `_rid`, `_seq` and the record itself — with the
physical location (`bid`) abstracted away. -/
def entryView (e : MapEntry) : String × Nat × Nat × Nat × Rec :=
  (e.id, e._oid, e._rid, e._seq, e.record)

/-- Claim C8: compacting an unlocked block (with the fresh replacement
file name distinct from the old one, as `generateId()` guarantees) is a
no-op on the key-value view: for every key the map's entry before and
after compaction agrees on id, `_oid`, `_rid`, `_seq` and the record —
in particular `_seq` and `_rid` are never bumped — and presence of keys
is unchanged. -/
theorem claim_C8 (m : JsMap String MapEntry) (pages : List Page) (page : Page)
    (newPageId : String) (hnd : m.NodupKeys) (hlock : page.locked = false)
    (hname : ¬ newPageId ++ ".page" = page.pageId) :
    ∃ res : CompactResult, compactPage m pages page 0 newPageId = .ok res ∧
      ∀ k : String, (res.map.get? k).map entryView = (m.get? k).map entryView := by
  have hl' : ¬ page.locked = true := fun h => Bool.false_ne_true (hlock ▸ h)
  unfold compactPage
  rw [if_neg hl']
  refine ⟨_, rfl, ?_⟩
  intro k
  dsimp only
  have hnew : ((m.entries.foldl
      (fun (acc : JsMap String MapEntry × Nat) kv =>
        if kv.2._seq < 0 then acc
        else if kv.2.bid = page.pageId then
          (acc.1.set kv.1 { kv.2 with bid := newPageId ++ ".page" },
            acc.2 + recLen kv.2.record)
        else acc)
      (JsMap.empty, 0)).1).NodupKeys :=
    compactFold_nodup page.pageId (newPageId ++ ".page") 0 m.entries
      (JsMap.empty, 0) List.nodup_nil
  have hmerged : ((mergePageMaps m [(m.entries.foldl
      (fun (acc : JsMap String MapEntry × Nat) kv =>
        if kv.2._seq < 0 then acc
        else if kv.2.bid = page.pageId then
          (acc.1.set kv.1 { kv.2 with bid := newPageId ++ ".page" },
            acc.2 + recLen kv.2.record)
        else acc)
      (JsMap.empty, 0)).1]).entries.map Prod.fst).Nodup := mergeOne_nodup _ hnd
  rw [show ∀ t : JsMap String MapEntry, (JsMap.mk
      (t.entries.filter (fun kv => ¬ kv.2.bid = page.pageId))).get? k =
      JsMap.getAux (t.entries.filter (fun kv => ¬ kv.2.bid = page.pageId)) k
    from fun t => rfl]
  rw [getAux_filter_nodup _ k _ hmerged]
  rw [show JsMap.getAux (mergePageMaps m [(m.entries.foldl
      (fun (acc : JsMap String MapEntry × Nat) kv =>
        if kv.2._seq < 0 then acc
        else if kv.2.bid = page.pageId then
          (acc.1.set kv.1 { kv.2 with bid := newPageId ++ ".page" },
            acc.2 + recLen kv.2.record)
        else acc)
      (JsMap.empty, 0)).1]).entries k =
    (mergeOne m ((m.entries.foldl
      (fun (acc : JsMap String MapEntry × Nat) kv =>
        if kv.2._seq < 0 then acc
        else if kv.2.bid = page.pageId then
          (acc.1.set kv.1 { kv.2 with bid := newPageId ++ ".page" },
            acc.2 + recLen kv.2.record)
        else acc)
      (JsMap.empty, 0)).1)).get? k from rfl]
  rw [mergeOne_get? _ m k hnew]
  rw [show ((m.entries.foldl
      (fun (acc : JsMap String MapEntry × Nat) kv =>
        if kv.2._seq < 0 then acc
        else if kv.2.bid = page.pageId then
          (acc.1.set kv.1 { kv.2 with bid := newPageId ++ ".page" },
            acc.2 + recLen kv.2.record)
        else acc)
      (JsMap.empty, 0)).1).get? k =
    match JsMap.getAux m.entries k with
    | some e => if ¬ e._seq < 0 ∧ e.bid = page.pageId
        then some { e with bid := newPageId ++ ".page" }
        else (JsMap.empty : JsMap String MapEntry).get? k
    | none => (JsMap.empty : JsMap String MapEntry).get? k
    from compactFold_getAux page.pageId (newPageId ++ ".page") 0 k
      m.entries hnd (JsMap.empty, 0)]
  cases hm : m.get? k with
  | none =>
    rw [show JsMap.getAux m.entries k = m.get? k from rfl, hm]
    rfl
  | some e =>
    rw [show JsMap.getAux m.entries k = m.get? k from rfl, hm]
    dsimp only
    by_cases hbid : e.bid = page.pageId
    · rw [if_pos (And.intro (Nat.not_lt_zero _) hbid)]
      dsimp only [combineOpt, combineEntry]
      rw [if_neg (show ¬ e._seq > ({ e with bid := newPageId ++ ".page" }
          : MapEntry)._seq from lt_irrefl e._seq)]
      dsimp only
      rw [if_pos (decide_eq_true (show ¬ ({ e with bid := newPageId ++ ".page" }
          : MapEntry).bid = page.pageId from hname))]
      rfl
    · rw [if_neg (fun hc => hbid hc.2), JsMap.get?_empty]
      dsimp only [combineOpt, combineEntry]
      rw [if_pos (decide_eq_true hbid)]

/-- C8 witness: a concrete one-key map on the page being compacted. -/
theorem claim_C8_witness :
    (JsMap.mk [("k", mkEntry "p1.page" r6)]).NodupKeys ∧
    (∃ res : CompactResult,
      compactPage ⟨[("k", mkEntry "p1.page" r6)]⟩
        [{ pageId := "p1.page", locked := false, size := 100, staleBytes := 0 }]
        { pageId := "p1.page", locked := false, size := 100, staleBytes := 0 }
        0 "p2" = .ok res ∧
      ∀ k : String, (res.map.get? k).map entryView =
        ((JsMap.mk [("k", mkEntry "p1.page" r6)]).get? k).map entryView) :=
  ⟨by decide,
    claim_C8 ⟨[("k", mkEntry "p1.page" r6)]⟩
      [{ pageId := "p1.page", locked := false, size := 100, staleBytes := 0 }]
      { pageId := "p1.page", locked := false, size := 100, staleBytes := 0 }
      "p2" (by decide) rfl (by decide)⟩

/-! ## Claim C10 -/

/-- The record as mutated in place by `setItem`: reserved fields assigned
directly onto the caller's object `r0`. -/
def setRecOf (s : DbState) (id : String) (r0 : Rec) : Rec :=
  { r0 with
    id := id
    _seq := s.seqNo + 1
    _oid := 1
    _rid := match s.idMap.get? id with
      | none => s.ridNo + 1
      | some e => e._rid }

/-- The index entry `setItem` stores for the mutated record. -/
def entryOf (id bid : String) (v1 : Rec) : MapEntry :=
  { _oid := 1, _rid := v1._rid, _seq := v1._seq, id := id, bid := bid, record := v1 }

/-- Claim C10: `setItem` mutates the caller's own object in place —
the reserved fields are assigned directly onto the passed value before
serialization, the very same reference is returned (not a copy), every
other heap object is untouched, and the line appended to storage is the
serialization of that same mutated object, which is also what the index
entry stores. -/
theorem claim_C10 (s : DbState) (id : String) (heap : Heap) (v : Ref) (r0 : Rec)
    (hk : id ≠ "") (hop : s.opened = true) (hh : heap.get? v = some r0)
    (hbl : ∀ e, s.idMap.get? id = some e → ∃ b, findBlock s.blocks e.bid = some b) :
    ∃ (res : SetResult) (v1 : Rec),
      setItem s id heap v = .ok res ∧
      res.ret = v ∧
      v1 = setRecOf s id r0 ∧
      res.heap = heap.set v v1 ∧
      res.heap.get? v = some v1 ∧
      (∀ w : Ref, w ≠ v → res.heap.get? w = heap.get? w) ∧
      res.written.2 = v1 ∧
      res.state.idMap.get? id = some (entryOf id res.written.1 v1) := by
  cases hex : s.idMap.get? id with
  | none =>
    rw [setItem_eq hk hop hh]
    dsimp only
    simp only [setRecOf]
    rw [hex]
    dsimp only
    generalize hA : getFreeBlock { s with seqNo := s.seqNo + 1, ridNo := s.ridNo + 1 } = A
    obtain ⟨bid0, s2⟩ := A
    have hidm : s2.idMap = s.idMap := by
      have hp := (getFreeBlock_proj { s with seqNo := s.seqNo + 1, ridNo := s.ridNo + 1 }).1
      rw [hA] at hp
      exact hp
    rw [updateStaleBytes_none]
    dsimp only
    refine ⟨_, _, rfl, rfl, rfl, rfl, JsMap.get?_set_self _ _ _,
      fun w hw => JsMap.get?_set_ne _ _ _ _ (Ne.symm hw), rfl, ?_⟩
    dsimp only
    rw [hidm]
    exact JsMap.get?_set_self _ _ _
  | some e =>
    obtain ⟨bOld, hfb⟩ := hbl e hex
    rw [setItem_eq hk hop hh]
    dsimp only
    simp only [setRecOf]
    rw [hex]
    dsimp only
    generalize hA : getFreeBlock { s with seqNo := s.seqNo + 1, ridNo := s.ridNo } = A
    obtain ⟨bid0, s2⟩ := A
    have hidm : s2.idMap = s.idMap := by
      have hp := (getFreeBlock_proj { s with seqNo := s.seqNo + 1, ridNo := s.ridNo }).1
      rw [hA] at hp
      exact hp
    have hfb2 : findBlock s2.blocks e.bid = some bOld := by
      have hp := (getFreeBlock_findBlock
        { s with seqNo := s.seqNo + 1, ridNo := s.ridNo }).2 e.bid bOld hfb
      rw [hA] at hp
      exact hp
    rw [updateStaleBytes_some _ hfb2]
    dsimp only
    refine ⟨_, _, rfl, rfl, rfl, rfl, JsMap.get?_set_self _ _ _,
      fun w hw => JsMap.get?_set_ne _ _ _ _ (Ne.symm hw), rfl, ?_⟩
    dsimp only
    rw [hidm]
    exact JsMap.get?_set_self _ _ _

def heapW : Heap := ⟨[(7, { id := "old", _oid := 0, _rid := 0, _seq := 0, payload := ",\"name\":\"x\"" })]⟩

theorem claim_C10_witness :
    ∃ (res : SetResult) (v1 : Rec),
      setItem s6 "j" heapW 7 = .ok res ∧
      res.ret = 7 ∧
      v1 = { id := "j", _oid := 1, _rid := 2, _seq := 6, payload := ",\"name\":\"x\"" } ∧
      res.heap = heapW.set 7 v1 ∧
      res.heap.get? 7 = some v1 ∧
      (∀ w : Ref, w ≠ 7 → res.heap.get? w = heapW.get? w) ∧
      res.written.2 = v1 ∧
      res.state.idMap.get? "j" = some (entryOf "j" res.written.1 v1) :=
  claim_C10 s6 "j" heapW 7
    { id := "old", _oid := 0, _rid := 0, _seq := 0, payload := ",\"name\":\"x\"" }
    (by decide) rfl rfl
    (by intro e he
        rw [show s6.idMap.get? "j" = none from rfl] at he
        exact Option.noConfusion he)

end JsDb
